import Mathlib

/-!
Verification of the event reconciliation and scoring engine.

This file gives a shallow embedding, in Lean 4, of the core of the
calendar-event reconciliation system: the pairwise cost model, the
Hungarian (Kuhn-Munkres) assignment solver, the tolerance profiles, the
pair classifier, the scoring reconciler (`score_sample`), the metrics
aggregator (`aggregate_scores`) and the assertion adapter
(`assert_extraction_result`), as implemented in
`tests/regression/tolerance.py` and `src/cal_ai/benchmark/scoring.py`.

Modelling conventions:
* Python `float` values are modelled as `ℚ` (the code only ever adds,
  subtracts, divides and compares distances, so exact rationals are a
  faithful model of the intended real-number semantics).
* Python `str` values carried by events are modelled as `Str := List Char`
  (a string is a sequence of code points); human-readable error messages
  are modelled as opaque `String` values that are produced but never
  inspected.
* The two external capabilities - `rapidfuzz.fuzz.token_set_ratio` and
  `datetime.fromisoformat` - are parameters (`sim`, `parse`) of every
  definition that needs them; concrete instances modelled from the spec
  are provided for concrete evaluations.
* Python lists indexed by integers become Lean `List`s; the mutable
  arrays of the Hungarian algorithm become functions `ℕ → _` updated
  with `Function.update`; `while` loops become fuel-indexed structural
  recursions returning `Option` (`none` = the fuel ran out, proved
  unreachable for the fuel used by the code paths).
-/

/-! ## Characters and strings -/

/-- A Python string, modelled as its sequence of code points. -/
abbrev Str := List Char

/-- Python `str.lower()`. -/
def lowerStr (s : Str) : Str := s.map Char.toLower

/-- Python `str.strip()`: remove leading and trailing whitespace. -/
def stripStr (s : Str) : Str :=
  ((s.dropWhile Char.isWhitespace).reverse.dropWhile Char.isWhitespace).reverse

/-- Does `pre` occur at the start of `s`? (helper for substring search). -/
def strStartsWith : Str → Str → Bool
  | _, [] => true
  | [], _ :: _ => false
  | a :: as, b :: bs => a = b && strStartsWith as bs

/-- Python `needle in hay` on strings: contiguous-substring test. -/
def strContains : Str → Str → Bool
  | hay, needle =>
    match hay with
    | [] => strStartsWith [] needle
    | _ :: rest => strStartsWith hay needle || strContains rest needle

/-- Split a string on a separator character, Python `str.split(sep)`-like
(used only with `' '` by the fuzzy-similarity model). -/
def splitOnChar (sep : Char) (s : Str) : List Str :=
  match s with
  | [] => [[]]
  | c :: rest =>
    let r := splitOnChar sep rest
    if c = sep then [] :: r
    else match r with
      | [] => [[c]]
      | w :: ws => (c :: w) :: ws

/-- Lexicographic `≤` on strings via the code-point order (Python `sorted`). -/
def strLeB : Str → Str → Bool
  | [], _ => true
  | _ :: _, [] => false
  | a :: as, b :: bs => if a < b then true else if b < a then false else strLeB as bs

/-! ## External capability models

The fuzzy title similarity and the ISO-8601 timestamp parser live outside
this repository (`rapidfuzz`, `datetime`); the engine is specified against
their contracts only.  All definitions below take them as parameters
`sim : Str → Str → ℚ` and `parse : Str → Option ℚ` (`parse` returns the
timestamp as seconds on an absolute time axis, `none` when the string does
not parse).  For concrete evaluations we also provide modelled instances.
-/

/-- The word tokens of a string: split on spaces, lowercase, drop empties,
drop duplicates. -/
def strTokens (s : Str) : List Str :=
  ((splitOnChar ' ' (lowerStr s)).filter (fun w => w ≠ [])).dedup

/-- Modelled from the spec: `rapidfuzz.fuzz.token_set_ratio` is an external
library capability; the spec only requires a similarity score in [0,100]
that is insensitive to word order and scores one string whose token set
contains the other's maximally.  This model returns 100 when either token
set contains the other and otherwise scales the shared-token count. -/
def token_set_ratio (a b : Str) : ℚ :=
  let ta := strTokens a
  let tb := strTokens b
  if ta.all (fun w => w ∈ tb) || tb.all (fun w => w ∈ ta) then 100
  else (100 * (ta.filter (fun w => w ∈ tb)).length) / (ta.length + tb.length)

/-- Digits of a decimal numeral, `none` when empty or non-digit. -/
def digitsToNat : Str → Option ℕ → Option ℕ
  | [], acc => acc
  | c :: rest, acc =>
    if c.isDigit then
      digitsToNat rest (some ((acc.getD 0) * 10 + (c.toNat - '0'.toNat)))
    else none

/-- Parse a decimal numeral. -/
def parseNat (s : Str) : Option ℕ := digitsToNat s none

/-- Modelled from the spec: `datetime.fromisoformat` is an external
capability; the spec only requires that a timestamp string either parses
to a point on an absolute time axis or fails.  This model accepts
`YYYY-MM-DDTHH:MM` and `YYYY-MM-DDTHH:MM:SS`, returns seconds on a
simplified proleptic axis (every month 31 days, no leap handling - the
claims never compare across month boundaries), and fails on anything
else. -/
def fromisoformat (s : Str) : Option ℚ :=
  match splitOnChar 'T' s with
  | [d, t] =>
    (match splitOnChar '-' d, splitOnChar ':' t with
     | [ys, ms, ds], [hs, mins] =>
       fromisoParts ys ms ds hs mins (some ([] : Str))
     | [ys, ms, ds], [hs, mins, secs] =>
       fromisoParts ys ms ds hs mins (some secs)
     | _, _ => none)
  | _ => none
where
  /-- Assemble the fields, validating ranges. -/
  fromisoParts (ys ms ds hs mins : Str) (secs : Option Str) : Option ℚ :=
    match parseNat ys, parseNat ms, parseNat ds, parseNat hs, parseNat mins,
          (match secs with | none => none | some [] => some 0 | some l => parseNat l) with
    | some y, some mo, some dy, some h, some mi, some se =>
      if 1 ≤ mo ∧ mo ≤ 12 ∧ 1 ≤ dy ∧ dy ≤ 31 ∧ h ≤ 23 ∧ mi ≤ 59 ∧ se ≤ 59 then
        some ((((((y * 12 + (mo - 1)) * 31 + (dy - 1)) * 24 + h) * 60 + mi) * 60 + se : ℕ) : ℚ)
      else none
    | _, _, _, _, _, _ => none

/-! ## Data model

Mirrors `cal_ai/models/extraction.py` (`ExtractedEvent`),
`tests/regression/schema.py` (`SidecarExpectedEvent`,
`SidecarCalendarEvent`, `SidecarSpec`) and the threshold table of
`tests/regression/tolerance.py`.  Pydantic models compare by value, so all
structures derive decidable equality.
-/

/-- Calendar action (`Literal["create", "update", "delete"]`). -/
inductive EAction
  | create
  | update
  | delete
deriving DecidableEq, Repr

/-- Extraction confidence (`Literal["high", "medium", "low"]`). -/
inductive Confidence
  | high
  | medium
  | low
deriving DecidableEq, Repr

/-- Tolerance level (`Literal["strict", "moderate", "relaxed"]`). -/
inductive TolLevel
  | strict
  | moderate
  | relaxed
deriving DecidableEq, Repr

/-- `cal_ai.models.extraction.ExtractedEvent`. -/
structure ExtractedEvent where
  title : Str
  start_time : Str
  end_time : Option Str := none
  location : Option Str := none
  attendees : List Str := []
  confidence : Confidence
  reasoning : Str := []
  assumptions : List Str := []
  action : EAction := EAction.create
  existing_event_id : Option ℤ := none
deriving DecidableEq, Repr

/-- `tests.regression.schema.SidecarExpectedEvent`. -/
structure SidecarExpectedEvent where
  action : EAction
  title : Str
  start_time : Str
  end_time : Option Str := none
  existing_event_id_required : Bool := false
  location : Option Str := none
  attendees_contain : List Str := []
deriving DecidableEq, Repr

/-- `tests.regression.schema.SidecarCalendarEvent` (the `id`, `summary` and
`location` fields are carried but never read by the tolerance engine). -/
structure SidecarCalendarEvent where
  id : Str
  summary : Str
  start : Str
  end_ : Str
  location : Option Str := none
deriving DecidableEq, Repr

/-- `tests.regression.schema.SidecarSpec` (the fields consumed by the
assertion engine; `mock_llm_response` is unused raw JSON and omitted). -/
structure SidecarSpec where
  description : Str := []
  category : Str := []
  tolerance : TolLevel := TolLevel.moderate
  owner : Str := []
  reference_datetime : Str := []
  calendar_context : List SidecarCalendarEvent := []
  expected_events : List SidecarExpectedEvent := []
  notes : Option Str := none
deriving DecidableEq, Repr

/-- `tests.regression.tolerance.ToleranceThresholds`.  `time_tolerance` is a
`timedelta`, stored as seconds. -/
structure ToleranceThresholds where
  event_count_tolerance : ℕ
  time_tolerance : ℚ
  title_ratio_min : ℚ
deriving DecidableEq, Repr

/-- `tests.regression.tolerance.THRESHOLDS`. -/
def THRESHOLDS : TolLevel → ToleranceThresholds
  | TolLevel.strict => ⟨0, 30 * 60, 95⟩
  | TolLevel.moderate => ⟨1, 2 * 60 * 60, 80⟩
  | TolLevel.relaxed => ⟨2, 24 * 60 * 60, 60⟩

/-! ## Cost model (`tests/regression/tolerance.py`) -/

/-- `tolerance._action_distance`: 0.0 if the actions match, 1000.0 otherwise. -/
def action_distance (actual expected : EAction) : ℚ :=
  if actual = expected then 0 else 1000

/-- `tolerance._title_distance`: `100 - token_set_ratio(actual, expected)`. -/
def title_distance (sim : Str → Str → ℚ) (actual expected : Str) : ℚ :=
  100 - sim actual expected

/-- `tolerance._time_distance`: absolute time difference in minutes, 0 if
both are `None`, a 10000.0 penalty if exactly one is `None` or either
fails to parse. -/
def time_distance (parse : Str → Option ℚ) (actual_iso expected_iso : Option Str) : ℚ :=
  match actual_iso, expected_iso with
  | none, none => 0
  | none, some _ => 10000
  | some _, none => 10000
  | some a, some e =>
    match parse a, parse e with
    | some ad, some ed => |ad - ed| / 60
    | _, _ => 10000

/-- `tolerance._event_pair_distance`: sum of action, title and start-time
distance. -/
def event_pair_distance (sim : Str → Str → ℚ) (parse : Str → Option ℚ)
    (actual : ExtractedEvent) (expected : SidecarExpectedEvent) : ℚ :=
  action_distance actual.action expected.action
    + title_distance sim actual.title expected.title
    + time_distance parse (some actual.start_time) (some expected.start_time)

/-! ## Metric formulas (`scoring._compute_prf`) -/

/-- `scoring._compute_prf`: precision, recall and F1 from raw counts. -/
def compute_prf (tp fp fn : ℕ) : ℚ × ℚ × ℚ :=
  if tp = 0 ∧ fp = 0 ∧ fn = 0 then (1, 1, 1)
  else
    let prec : ℚ := if 0 < tp + fp then (tp : ℚ) / ((tp : ℚ) + (fp : ℚ)) else 1
    let rcl : ℚ := if 0 < tp + fn then (tp : ℚ) / ((tp : ℚ) + (fn : ℚ)) else 1
    let f1 : ℚ := if 0 < prec + rcl then 2 * prec * rcl / (prec + rcl) else 0
    (prec, rcl, f1)

/-! ## Assignment solver (`tolerance._hungarian_assignment`)

The classical O(n³) primal-dual Kuhn-Munkres algorithm, exactly as in the
source: pad the matrix to a square of size `n = max(n_rows, n_cols)` with
a huge dummy cost, run `n` rounds each of which augments the column
assignment `p` with one more row via potentials `u`, `v`, the tentative
minima `min_v`, the backtrack array `way` and the visited set `used`,
then read the assignment off `p`, dropping padded indices.

`min_v` entries start at `float("inf")`, modelled as `none`; the `while`
loops become fuel recursions (fuel `n + 2` always suffices, which is part
of what we prove).
-/

/-- The padding cost `1e9` for dummy rows/columns. -/
def pad_cost : ℚ := 1000000000

/-- `q < o` where `o : Option ℚ` means `+∞` when `none`. -/
def ltOpt (q : ℚ) : Option ℚ → Bool
  | none => true
  | some x => decide (q < x)

/-- `a < b` on `Option ℚ` with `none = +∞`. -/
def ltOptOpt : Option ℚ → Option ℚ → Bool
  | none, _ => false
  | some _, none => true
  | some x, some y => decide (x < y)

/-- Subtract a rational from an extended rational (`∞ - d = ∞`). -/
def subOpt : Option ℚ → ℚ → Option ℚ
  | none, _ => none
  | some x, d => some (x - d)

/-- The first inner `for j in range(1, n+1)` loop of one Kuhn-Munkres
step: update the tentative column minima `min_v` and backtrack pointers
`way` against the current row `i0` reached via column `j0`, and track the
unused column `j1` with the smallest tentative minimum `delta`. -/
def scanCols (matrix : ℕ → ℕ → ℚ) (u v : ℕ → ℚ) (used : ℕ → Bool) (i0 j0 : ℕ) :
    List ℕ → (ℕ → Option ℚ) → (ℕ → ℕ) → Option ℚ → Option ℕ →
    ((ℕ → Option ℚ) × (ℕ → ℕ) × Option ℚ × Option ℕ)
  | [], minv, way, delta, j1 => (minv, way, delta, j1)
  | j :: js, minv, way, delta, j1 =>
    if used j then scanCols matrix u v used i0 j0 js minv way delta j1
    else
      let cur := matrix (i0 - 1) (j - 1) - u i0 - v j
      let minv' := if ltOpt cur (minv j) then Function.update minv j (some cur) else minv
      let way' := if ltOpt cur (minv j) then Function.update way j j0 else way
      let delta' := if ltOptOpt (minv' j) delta then minv' j else delta
      let j1' := if ltOptOpt (minv' j) delta then some j else j1
      scanCols matrix u v used i0 j0 js minv' way' delta' j1'

/-- The second inner `for j in range(n+1)` loop of one Kuhn-Munkres step:
shift the potentials of visited rows/columns by `delta` and lower the
tentative minima of unvisited columns. -/
def updatePotentials (p : ℕ → ℕ) (used : ℕ → Bool) (dq : ℚ) :
    List ℕ → (ℕ → ℚ) → (ℕ → ℚ) → (ℕ → Option ℚ) →
    ((ℕ → ℚ) × (ℕ → ℚ) × (ℕ → Option ℚ))
  | [], u, v, minv => (u, v, minv)
  | j :: js, u, v, minv =>
    if used j then
      updatePotentials p used dq js
        (Function.update u (p j) (u (p j) + dq)) (Function.update v j (v j - dq)) minv
    else
      updatePotentials p used dq js u v (Function.update minv j (subOpt (minv j) dq))

/-- The `while True` augmenting-path search of one Kuhn-Munkres round;
returns the final potentials, backtrack pointers and the free column
`jbrk` (`p jbrk = 0`) at which the search broke out.  `none` only when
the fuel runs out or no unused column remains, both proved unreachable. -/
def searchLoop (matrix : ℕ → ℕ → ℚ) (n : ℕ) :
    ℕ → (ℕ → ℚ) → (ℕ → ℚ) → (ℕ → ℕ) → (ℕ → ℕ) → (ℕ → Option ℚ) → (ℕ → Bool) → ℕ →
    Option ((ℕ → ℚ) × (ℕ → ℚ) × (ℕ → ℕ) × ℕ)
  | 0, _, _, _, _, _, _, _ => none
  | fuel + 1, u, v, p, way, minv, used, j0 =>
    let used' := Function.update used j0 true
    let r := scanCols matrix u v used' (p j0) j0 (List.range' 1 n) minv way none none
    match r.2.2.1, r.2.2.2 with
    | some dq, some jn =>
      let uvm := updatePotentials p used' dq (List.range (n + 1)) u v r.1
      if p jn = 0 then some (uvm.1, uvm.2.1, r.2.1, jn)
      else searchLoop matrix n fuel uvm.1 uvm.2.1 p r.2.1 uvm.2.2 used' jn
    | _, _ => none

/-- The `while j0:` backtrack of one Kuhn-Munkres round: walk the `way`
chain from the free column down to column 0, shifting the assignment one
step along the augmenting path. -/
def backtrack (way : ℕ → ℕ) : ℕ → (ℕ → ℕ) → ℕ → Option (ℕ → ℕ)
  | 0, p, j0 => if j0 = 0 then some p else none
  | fuel + 1, p, j0 =>
    if j0 = 0 then some p
    else backtrack way fuel (Function.update p j0 (p (way j0))) (way j0)

/-- The outer `for i in range(1, n+1)` loop: one augmenting round per row. -/
def hungarianRounds (matrix : ℕ → ℕ → ℚ) (n : ℕ) :
    List ℕ → (ℕ → ℚ) → (ℕ → ℚ) → (ℕ → ℕ) → (ℕ → ℕ) → Option (ℕ → ℕ)
  | [], _, _, p, _ => some p
  | i :: is, u, v, p, way =>
    let p0 := Function.update p 0 i
    match searchLoop matrix n (n + 2) u v p0 way (fun _ => none) (fun _ => false) 0 with
    | none => none
    | some (u', v', way', jbrk) =>
      match backtrack way' (n + 2) p0 jbrk with
      | none => none
      | some p' => hungarianRounds matrix n is u' v' p' way'

/-- `tolerance._hungarian_assignment`: solve the linear assignment problem
over an `n_rows × n_cols` cost matrix, returning `(row, col)` pairs within
the original (non-padded) dimensions. -/
def hungarian_assignment (cm : List (List ℚ)) : Option (List (ℕ × ℕ)) :=
  match cm with
  | [] => some []
  | r0 :: _ =>
    if r0 = [] then some []
    else
      let n_rows := cm.length
      let n_cols := r0.length
      let n := max n_rows n_cols
      let matrix : ℕ → ℕ → ℚ := fun i j =>
        if i < n_rows ∧ j < n_cols then (cm.getD i []).getD j pad_cost else pad_cost
      match hungarianRounds matrix n (List.range' 1 n)
          (fun _ => 0) (fun _ => 0) (fun _ => 0) (fun _ => 0) with
      | none => none
      | some p =>
        some ((List.range' 1 n).filterMap (fun j =>
          if p j ≠ 0 ∧ p j - 1 < n_rows ∧ j - 1 < n_cols then some (p j - 1, j - 1) else none))

/-! ## Best-match pairing (`tolerance._best_match_pairs`) -/

/-- Placeholder event used only to totalize list indexing (the indices
returned by the solver are proved to be in range, so it is never read). -/
def default_extracted : ExtractedEvent :=
  { title := [], start_time := [], confidence := Confidence.high }

/-- Placeholder expected event, as `default_extracted`. -/
def default_expected : SidecarExpectedEvent :=
  { action := EAction.create, title := [], start_time := [] }

/-- Placeholder calendar-context event, as `default_extracted`. -/
def default_calendar_event : SidecarCalendarEvent :=
  { id := [], summary := [], start := [], end_ := [] }

/-- `tolerance._best_match_pairs`: build the cost matrix of composite
distances (rows = actual, cols = expected), solve the assignment problem
and return the matched `(actual, expected, distance)` triples. -/
def best_match_pairs (sim : Str → Str → ℚ) (parse : Str → Option ℚ)
    (actual_events : List ExtractedEvent) (expected_events : List SidecarExpectedEvent) :
    Option (List (ExtractedEvent × SidecarExpectedEvent × ℚ)) :=
  if actual_events = [] ∨ expected_events = [] then some []
  else
    let cost_matrix := actual_events.map (fun act =>
      expected_events.map (fun ex => event_pair_distance sim parse act ex))
    match hungarian_assignment cost_matrix with
    | none => none
    | some assignment =>
      some (assignment.map (fun ij =>
        (actual_events.getD ij.1 default_extracted,
         expected_events.getD ij.2 default_expected,
         (cost_matrix.getD ij.1 []).getD ij.2 0)))

/-! ## Pair classifier (`scoring._check_event_match`) -/

/-- `scoring._check_time_tolerance`: `none` when within tolerance, a
reason string otherwise.  Nothing to check when the expected value is
null; a null or unparsable actual value fails. -/
def check_time_tolerance (parse : Str → Option ℚ)
    (actual_iso expected_iso : Option Str) (tolerance : ℚ) (label : String) : Option String :=
  match expected_iso with
  | none => none
  | some es =>
    match actual_iso with
    | none => some (label ++ ": expected a value but got None")
    | some act =>
      match parse act with
      | none => some (label ++ ": cannot parse actual")
      | some ad =>
        match parse es with
        | none => some (label ++ ": cannot parse expected")
        | some ed =>
          if |ad - ed| > tolerance then some (label ++ ": difference exceeds tolerance")
          else none

/-- The title check inlined in `scoring._check_event_match`: exact
equality after strip+lower under "strict", fuzzy ratio against
`title_ratio_min` otherwise. -/
def scoring_title_reason (sim : Str → Str → ℚ) (tolerance : TolLevel)
    (actual_title expected_title : Str) : Option String :=
  if tolerance = TolLevel.strict then
    if lowerStr (stripStr actual_title) ≠ lowerStr (stripStr expected_title) then
      some "title (strict exact): mismatch"
    else none
  else
    if sim actual_title expected_title < (THRESHOLDS tolerance).title_ratio_min then
      some "title: ratio below minimum"
    else none

/-- `scoring._check_event_match`: the mismatch reasons of one matched
pair.  An action mismatch short-circuits; otherwise the title reason and
the start and end time reasons are accumulated in order. -/
def check_event_match (sim : Str → Str → ℚ) (parse : Str → Option ℚ)
    (actual : ExtractedEvent) (expected : SidecarExpectedEvent) (tolerance : TolLevel) :
    List String :=
  let thresholds := THRESHOLDS tolerance
  if actual.action ≠ expected.action then
    ["action: expected and actual differ"]
  else
    (scoring_title_reason sim tolerance actual.title expected.title).toList
      ++ (check_time_tolerance parse (some actual.start_time) (some expected.start_time)
            thresholds.time_tolerance "start_time").toList
      ++ (check_time_tolerance parse actual.end_time expected.end_time
            thresholds.time_tolerance "end_time").toList

/-! ## Scoring reconciler (`scoring.score_sample`) -/

/-- The classification of one record (`Literal["tp", "fp", "fn"]`). -/
inductive Classification
  | tp
  | fp
  | fn
deriving DecidableEq, Repr

/-- `scoring.EventMatchDetail`. -/
structure EventMatchDetail where
  classification : Classification
  actual_event : Option ExtractedEvent := none
  expected_event : Option SidecarExpectedEvent := none
  mismatch_reasons : List String := []
deriving DecidableEq, Repr

/-- `scoring.SampleScore`. -/
structure SampleScore where
  sample_name : String
  category : Str
  tolerance : TolLevel
  tp : ℕ
  fp : ℕ
  fn : ℕ
  precision : ℚ
  «recall» : ℚ
  f1 : ℚ
  per_event_details : List EventMatchDetail := []
deriving DecidableEq, Repr

/-- `scoring.CategoryScore`. -/
structure CategoryScore where
  category : Str
  tp : ℕ
  fp : ℕ
  fn : ℕ
  precision : ℚ
  «recall» : ℚ
  f1 : ℚ
  sample_count : ℕ
deriving DecidableEq, Repr

/-- `scoring.AggregateScore`. -/
structure AggregateScore where
  overall_tp : ℕ
  overall_fp : ℕ
  overall_fn : ℕ
  overall_precision : ℚ
  overall_recall : ℚ
  overall_f1 : ℚ
  per_category : List CategoryScore := []
  sample_count : ℕ := 0
deriving DecidableEq, Repr

/-- Python `list.index`: position of the first element equal by value. -/
def list_index {α : Type} [DecidableEq α] (xs : List α) (a : α) : ℕ :=
  xs.findIdx (fun x => x = a)

/-- Accumulator of the per-pair loop of `score_sample`. -/
structure PairFoldState where
  paired_actual_indices : Finset ℕ
  paired_expected_indices : Finset ℕ
  tp : ℕ
  fp_from_mismatch : ℕ
  fn_from_mismatch : ℕ
  details : List EventMatchDetail

/-- The `for actual_event, expected_event, _dist in pairs:` loop of
`score_sample`: track paired indices and emit one TP record or an FP+FN
record pair per matched pair. -/
def score_pairs_loop (sim : Str → Str → ℚ) (parse : Str → Option ℚ) (tolerance : TolLevel)
    (actual_events : List ExtractedEvent) (expected_events : List SidecarExpectedEvent) :
    List (ExtractedEvent × SidecarExpectedEvent × ℚ) → PairFoldState → PairFoldState
  | [], st => st
  | (actual_event, expected_event, _) :: rest, st =>
    let act_idx := list_index actual_events actual_event
    let exp_idx := list_index expected_events expected_event
    let pa := insert act_idx st.paired_actual_indices
    let pe := insert exp_idx st.paired_expected_indices
    let mismatch_reasons := check_event_match sim parse actual_event expected_event tolerance
    if mismatch_reasons = [] then
      score_pairs_loop sim parse tolerance actual_events expected_events rest
        { st with paired_actual_indices := pa, paired_expected_indices := pe,
                  tp := st.tp + 1,
                  details := st.details ++
                    [{ classification := Classification.tp,
                       actual_event := some actual_event,
                       expected_event := some expected_event }] }
    else
      score_pairs_loop sim parse tolerance actual_events expected_events rest
        { st with paired_actual_indices := pa, paired_expected_indices := pe,
                  fp_from_mismatch := st.fp_from_mismatch + 1,
                  fn_from_mismatch := st.fn_from_mismatch + 1,
                  details := st.details ++
                    [{ classification := Classification.fp,
                       actual_event := some actual_event,
                       expected_event := some expected_event,
                       mismatch_reasons := mismatch_reasons },
                     { classification := Classification.fn,
                       expected_event := some expected_event,
                       mismatch_reasons := mismatch_reasons }] }

/-- `scoring.score_sample`: match, classify each matched pair, then count
the unmatched residue as FP/FN and derive the metrics. -/
def score_sample (sim : Str → Str → ℚ) (parse : Str → Option ℚ)
    (actual_events : List ExtractedEvent) (expected_events : List SidecarExpectedEvent)
    (tolerance_level : TolLevel) (sample_name : String) (category : Str) :
    Option SampleScore :=
  if actual_events = [] ∧ expected_events = [] then
    let prf := compute_prf 0 0 0
    some { sample_name, category, tolerance := tolerance_level,
           tp := 0, fp := 0, fn := 0,
           precision := prf.1, «recall» := prf.2.1, f1 := prf.2.2 }
  else
    match best_match_pairs sim parse actual_events expected_events with
    | none => none
    | some pairs =>
      let st := score_pairs_loop sim parse tolerance_level actual_events expected_events
        pairs ⟨∅, ∅, 0, 0, 0, []⟩
      let fp_unmatched := (List.range actual_events.length).filter
        (fun i => i ∉ st.paired_actual_indices)
      let fn_unmatched := (List.range expected_events.length).filter
        (fun i => i ∉ st.paired_expected_indices)
      let details := st.details
        ++ fp_unmatched.map (fun i =>
            { classification := Classification.fp,
              actual_event := some (actual_events.getD i default_extracted) })
        ++ fn_unmatched.map (fun i =>
            { classification := Classification.fn,
              expected_event := some (expected_events.getD i default_expected) })
      let total_fp := st.fp_from_mismatch + fp_unmatched.length
      let total_fn := st.fn_from_mismatch + fn_unmatched.length
      let prf := compute_prf st.tp total_fp total_fn
      some { sample_name, category, tolerance := tolerance_level,
             tp := st.tp, fp := total_fp, fn := total_fn,
             precision := prf.1, «recall» := prf.2.1, f1 := prf.2.2,
             per_event_details := details }

/-! ## Metrics aggregator (`scoring.aggregate_scores`) -/

/-- `scoring.aggregate_scores`: micro-average overall and per category
(categories sorted by name); an empty input yields the vacuous-truth
aggregate. -/
def aggregate_scores (sample_scores : List SampleScore) : AggregateScore :=
  if sample_scores = [] then
    { overall_tp := 0, overall_fp := 0, overall_fn := 0,
      overall_precision := 1, overall_recall := 1, overall_f1 := 1,
      per_category := [], sample_count := 0 }
  else
    let total_tp := (sample_scores.map SampleScore.tp).sum
    let total_fp := (sample_scores.map SampleScore.fp).sum
    let total_fn := (sample_scores.map SampleScore.fn).sum
    let prf := compute_prf total_tp total_fp total_fn
    let cats := ((sample_scores.map SampleScore.category).dedup).mergeSort strLeB
    let per_category := cats.map (fun cat_name =>
      let cat_samples := sample_scores.filter (fun s => s.category = cat_name)
      let cat_tp := (cat_samples.map SampleScore.tp).sum
      let cat_fp := (cat_samples.map SampleScore.fp).sum
      let cat_fn := (cat_samples.map SampleScore.fn).sum
      let cprf := compute_prf cat_tp cat_fp cat_fn
      ({ category := cat_name, tp := cat_tp, fp := cat_fp, fn := cat_fn,
         precision := cprf.1, «recall» := cprf.2.1, f1 := cprf.2.2,
         sample_count := cat_samples.length } : CategoryScore))
    { overall_tp := total_tp, overall_fp := total_fp, overall_fn := total_fn,
      overall_precision := prf.1, overall_recall := prf.2.1, overall_f1 := prf.2.2,
      per_category := per_category, sample_count := sample_scores.length }

/-! ## Assertion adapter (`tolerance.assert_extraction_result` and helpers) -/

/-- `cal_ai.models.extraction.ExtractionResult` (the `usage_metadata`
field is raw API metadata and omitted). -/
structure ExtractionResult where
  events : List ExtractedEvent := []
  summary : String := ""
deriving Repr

/-- `tolerance._assert_time_within_tolerance`, with the raised
`AssertionError` modelled as a returned message (`none` = no error). -/
def assert_time_within_tolerance (parse : Str → Option ℚ)
    (actual_iso expected_iso : Option Str) (tolerance : ℚ) (label : String) :
    Option String :=
  match expected_iso with
  | none => none
  | some es =>
    match actual_iso with
    | none => some (label ++ ": expected a value but got None")
    | some act =>
      match parse act with
      | none => some (label ++ ": cannot parse actual")
      | some ad =>
        match parse es with
        | none => some (label ++ ": cannot parse expected")
        | some ed =>
          if |ad - ed| > tolerance then
            some (label ++ ": time difference exceeds tolerance")
          else none

/-- `tolerance._assert_title_match`: fails iff the fuzzy ratio is below
`min_ratio` (note: fuzzy under every tolerance level). -/
def assert_title_match (sim : Str → Str → ℚ) (actual expected : Str) (min_ratio : ℚ) :
    Option String :=
  if sim actual expected < min_ratio then some "Title mismatch: ratio below minimum"
  else none

/-- `tolerance._assert_attendees_contain`: fails at the first required
substring (case-insensitive) not contained in any actual attendee. -/
def assert_attendees_contain (actual_attendees required_substrings : List Str) :
    Option String :=
  if required_substrings = [] then none
  else
    let actual_lower := actual_attendees.map lowerStr
    match required_substrings.find? (fun required =>
        !(actual_lower.any (fun attendee => strContains attendee (lowerStr required)))) with
    | some _ => some "Attendee check failed: required substring not found"
    | none => none

/-- `tolerance._build_context_id_set`: the 1-based ids of the calendar
context, `set(range(1, len(calendar_context) + 1))`. -/
def build_context_id_set (sidecar : SidecarSpec) : Finset ℤ :=
  Finset.Icc 1 (sidecar.calendar_context.length : ℤ)

/-- `tolerance._resolve_delete_time_from_context`: start/end times of the
calendar-context event referenced by a 1-based id, `(None, None)` when
missing or out of range. -/
def resolve_delete_time_from_context (actual_event_id : Option ℤ) (sidecar : SidecarSpec) :
    Option Str × Option Str :=
  match actual_event_id with
  | none => (none, none)
  | some aid =>
    if sidecar.calendar_context = [] then (none, none)
    else
      let idx := aid - 1
      if 0 ≤ idx ∧ idx < (sidecar.calendar_context.length : ℤ) then
        let ctx_event := sidecar.calendar_context.getD idx.toNat default_calendar_event
        (some ctx_event.start, some ctx_event.end_)
      else (none, none)

/-- The per-pair body of the assertion loop in
`tolerance.assert_extraction_result`: an action mismatch short-circuits
the pair; otherwise the title, resolved start/end time, required-id,
attendee and location violations are accumulated in order. -/
def assert_pair_errors (sim : Str → Str → ℚ) (parse : Str → Option ℚ)
    (thresholds : ToleranceThresholds) (valid_context_ids : Finset ℤ)
    (sidecar : SidecarSpec) (actual_event : ExtractedEvent)
    (expected_event : SidecarExpectedEvent) : List String :=
  if actual_event.action ≠ expected_event.action then
    ["action mismatch"]
  else
    let title_err := (assert_title_match sim actual_event.title expected_event.title
      thresholds.title_ratio_min).toList
    let resolved :=
      if actual_event.action = EAction.delete ∧ actual_event.existing_event_id ≠ none
          ∧ sidecar.calendar_context ≠ [] then
        resolve_delete_time_from_context actual_event.existing_event_id sidecar
      else (none, none)
    let expected_start := match resolved.1 with
      | some ctx_start => ctx_start
      | none => expected_event.start_time
    let expected_end := match resolved.2 with
      | some ctx_end => some ctx_end
      | none => expected_event.end_time
    let start_err := (assert_time_within_tolerance parse (some actual_event.start_time)
      (some expected_start) thresholds.time_tolerance "start_time").toList
    let end_err := (assert_time_within_tolerance parse actual_event.end_time
      expected_end thresholds.time_tolerance "end_time").toList
    let id_err :=
      if expected_event.existing_event_id_required then
        match actual_event.existing_event_id with
        | none => ["existing_event_id is required but was None"]
        | some aid =>
          if valid_context_ids = ∅ then
            ["existing_event_id_required=True but calendar_context is empty"]
          else if aid ∉ valid_context_ids then
            ["existing_event_id is not in valid context IDs"]
          else []
      else []
    let att_err := (assert_attendees_contain actual_event.attendees
      expected_event.attendees_contain).toList
    let loc_err := match expected_event.location with
      | none => []
      | some expected_loc =>
        (assert_title_match sim (actual_event.location.getD []) expected_loc
          thresholds.title_ratio_min).toList
    title_err ++ start_err ++ end_err ++ id_err ++ att_err ++ loc_err

/-- `tolerance.assert_extraction_result`: the count pre-check raises
immediately; otherwise all per-pair violations are collected and, when
non-empty, raised as one aggregated error carrying the violation count.
The raised `AssertionError` is modelled as `Except.error`. -/
def assert_extraction_result (sim : Str → Str → ℚ) (parse : Str → Option ℚ)
    (actual : ExtractionResult) (sidecar : SidecarSpec) :
    Option (Except String Unit) :=
  let thresholds := THRESHOLDS sidecar.tolerance
  let expected_events := sidecar.expected_events
  let actual_events := actual.events
  let valid_context_ids := build_context_id_set sidecar
  let count_diff := ((actual_events.length : ℤ) - (expected_events.length : ℤ)).natAbs
  if thresholds.event_count_tolerance < count_diff then
    some (Except.error "Event count mismatch")
  else
    match best_match_pairs sim parse actual_events expected_events with
    | none => none
    | some pairs =>
      let errors := pairs.foldl (fun errs pr =>
        errs ++ assert_pair_errors sim parse thresholds valid_context_ids sidecar
          pr.1 pr.2.1) []
      if errors = [] then some (Except.ok ())
      else
        some (Except.error ("Extraction assertion failures ("
          ++ toString errors.length ++ " issue(s))"))

/-! ## Structural analysis of the assignment solver

The claims about `_hungarian_assignment` are structural: the algorithm
terminates (the fuel `n + 2` given to each loop suffices), and the final
column assignment `p` is injective on its nonzero entries, so the
returned pairs form a partial injective mapping.  Neither fact depends on
the numeric contents of the matrix or the potentials; they follow from
three invariants: every `way` pointer of a visited column leads back to
column 0, a free unused column always remains while a round is searching,
and the backtrack step only rotates assignment values along a chain.
-/

/-- The backtrack chain from `x` along `way` reaches column 0 through
visited columns. -/
inductive ReachZ (way : ℕ → ℕ) (used : ℕ → Bool) : ℕ → Prop
  | zero : ReachZ way used 0
  | step (j : ℕ) : j ≠ 0 → used j = true → ReachZ way used (way j) → ReachZ way used j

/-- Partial injectivity of a column assignment on `{0, …, n} \ {e}`:
distinct positions other than `e` never share a nonzero value. -/
def InjExc (n : ℕ) (p : ℕ → ℕ) (e : ℕ) : Prop :=
  ∀ j j', j ≤ n → j' ≤ n → j ≠ e → j' ≠ e → p j ≠ 0 → p j = p j' → j = j'

/-- The number of unvisited columns among `0, …, n`. -/
def unusedCard (used : ℕ → Bool) (n : ℕ) : ℕ :=
  ((Finset.range (n + 1)).filter (fun j => used j = false)).card

/-- A concrete candidate event used by closed instantiations. -/
def lunch_candidate : ExtractedEvent :=
  { title := "Lunch".data, start_time := "2026-02-20T12:00:00".data,
    confidence := Confidence.high }

/-! ## Order-(in)dependence of the matcher -/

def evA9 : ExtractedEvent :=
  { title := "Lunch".data, start_time := "2026-02-20T12:00:00".data,
    confidence := Confidence.high }

def evB9 : ExtractedEvent :=
  { title := "Lunch".data, start_time := "2026-02-20T12:10:00".data,
    confidence := Confidence.high }

def exR9 : SidecarExpectedEvent :=
  { action := EAction.create, title := "Lunch".data,
    start_time := "2026-02-20T12:20:00".data }

def exS9 : SidecarExpectedEvent :=
  { action := EAction.create, title := "Lunch".data,
    start_time := "2026-02-20T12:30:00".data }

/-- A concrete expected event used by closed instantiations. -/
def exE6 : SidecarExpectedEvent :=
  { action := EAction.create, title := "Lunch".data,
    start_time := "2026-02-20T12:00:00".data }

/-- A concrete sidecar spec with one expected event and no candidates
matched against it. -/
def sidecar6 : SidecarSpec :=
  { tolerance := TolLevel.moderate, expected_events := [exE6] }

/-! ## Theorems -/

/-! ### C4: the metric computation -/

/-- The `_compute_prf` output written as the spec's closed formulas
(shared helper for the metric claims). -/
theorem compute_prf_eq (tp fp fn : ℕ) :
    compute_prf tp fp fn =
      (let prec : ℚ := if 0 < tp + fp then (tp : ℚ) / ((tp : ℚ) + (fp : ℚ)) else 1
       let rcl : ℚ := if 0 < tp + fn then (tp : ℚ) / ((tp : ℚ) + (fn : ℚ)) else 1
       (prec, rcl,
        if 0 < prec + rcl then 2 * prec * rcl / (prec + rcl) else 0)) := by
  by_cases h : tp = 0 ∧ fp = 0 ∧ fn = 0
  · obtain ⟨h1, h2, h3⟩ := h
    subst h1; subst h2; subst h3
    norm_num [compute_prf]
  · simp only [compute_prf, if_neg h]

/-- C4: for all non-negative integer counts, `_compute_prf` returns
precision `tp/(tp+fp)` when `tp+fp > 0` and `1.0` otherwise, recall
`tp/(tp+fn)` when `tp+fn > 0` and `1.0` otherwise, and F1
`2·p·r/(p+r)` when `p+r > 0` and `0.0` otherwise; in particular
`(0,0,0) ↦ (1,1,1)`, `(0,0,3) ↦ (1,0,0)` and `(0,3,0) ↦ (0,1,0)`. -/
theorem compute_prf_meets_spec (tp fp fn : ℕ) :
    (compute_prf tp fp fn =
      (let prec : ℚ := if 0 < tp + fp then (tp : ℚ) / ((tp : ℚ) + (fp : ℚ)) else 1
       let rcl : ℚ := if 0 < tp + fn then (tp : ℚ) / ((tp : ℚ) + (fn : ℚ)) else 1
       (prec, rcl,
        if 0 < prec + rcl then 2 * prec * rcl / (prec + rcl) else 0)))
    ∧ compute_prf 0 0 0 = (1, 1, 1)
    ∧ compute_prf 0 0 3 = (1, 0, 0)
    ∧ compute_prf 0 3 0 = (0, 1, 0) :=
  ⟨compute_prf_eq tp fp fn, by norm_num [compute_prf], by norm_num [compute_prf],
    by norm_num [compute_prf]⟩

/-! ### C2: the pairwise cost -/

/-- C2: for every candidate and reference event, the pairwise cost is the
sum of the action distance (0 on equal actions, 1000 otherwise), the title
distance (100 minus the fuzzy similarity) and the start-time distance;
and the time distance is 0 when both inputs are null, 10000 when exactly
one is null or either fails to parse, and the absolute difference in
minutes otherwise. -/
theorem event_pair_distance_meets_spec (sim : Str → Str → ℚ) (parse : Str → Option ℚ)
    (a : ExtractedEvent) (e : SidecarExpectedEvent) :
    (event_pair_distance sim parse a e =
      (if a.action = e.action then (0 : ℚ) else 1000) + (100 - sim a.title e.title)
        + time_distance parse (some a.start_time) (some e.start_time))
    ∧ time_distance parse none none = 0
    ∧ (∀ xs, time_distance parse (some xs) none = 10000)
    ∧ (∀ ys, time_distance parse none (some ys) = 10000)
    ∧ (∀ xs ys, (parse xs = none ∨ parse ys = none) →
        time_distance parse (some xs) (some ys) = 10000)
    ∧ (∀ xs ys tx ty, parse xs = some tx → parse ys = some ty →
        time_distance parse (some xs) (some ys) = |tx - ty| / 60) := by
  refine ⟨rfl, rfl, fun xs => rfl, fun ys => rfl, ?_, ?_⟩
  · rintro xs ys (h | h) <;> simp [time_distance, h]
  · intro xs ys tx ty hx hy
    simp [time_distance, hx, hy]

/-- Closed instantiation of the C2 theorem at a concrete input. -/
theorem event_pair_distance_meets_spec_witness :
    (event_pair_distance token_set_ratio fromisoformat
      { title := "Lunch".data, start_time := "2026-02-20T12:00:00".data,
        confidence := Confidence.high } 
      { action := EAction.create, title := "Lunch".data,
        start_time := "2026-02-20T12:30:00".data } =
      (if EAction.create = EAction.create then (0 : ℚ) else 1000)
        + (100 - token_set_ratio "Lunch".data "Lunch".data)
        + time_distance fromisoformat (some "2026-02-20T12:00:00".data)
            (some "2026-02-20T12:30:00".data))
    ∧ time_distance fromisoformat none none = 0 := by
  refine ⟨(event_pair_distance_meets_spec token_set_ratio fromisoformat _ _).1,
    (event_pair_distance_meets_spec token_set_ratio fromisoformat
      { title := "Lunch".data, start_time := "2026-02-20T12:00:00".data,
        confidence := Confidence.high }
      { action := EAction.create, title := "Lunch".data,
        start_time := "2026-02-20T12:30:00".data }).2.1⟩

/-- Reachability is monotone in the visited set. -/
theorem ReachZ.mono {way : ℕ → ℕ} {used used' : ℕ → Bool}
    (hsub : ∀ j, used j = true → used' j = true) {x : ℕ} (h : ReachZ way used x) :
    ReachZ way used' x := by
  induction h with
  | zero => exact ReachZ.zero
  | step j hj hu _ ih => exact ReachZ.step j hj (hsub j hu) ih

/-- Reachability only inspects `way` at visited columns, so updating an
unvisited pointer preserves it. -/
theorem ReachZ.update_unused {way : ℕ → ℕ} {used : ℕ → Bool} {jx w : ℕ}
    (hjx : used jx = false) {x : ℕ} (h : ReachZ way used x) :
    ReachZ (Function.update way jx w) used x := by
  induction h with
  | zero => exact ReachZ.zero
  | step j hj hu _ ih =>
    have hne : j ≠ jx := by
      intro he; rw [he, hjx] at hu; cases hu
    refine ReachZ.step j hj hu ?_
    rwa [Function.update_noteq hne]

/-- Unfold a reach derivation into an iterate of `way` hitting 0 whose
proper chain nodes are visited nonzero columns. -/
theorem ReachZ.to_iterate {way : ℕ → ℕ} {used : ℕ → Bool} {x : ℕ}
    (h : ReachZ way used x) :
    ∃ k, way^[k] x = 0 ∧ ∀ t, t < k → used (way^[t] x) = true ∧ way^[t] x ≠ 0 := by
  induction h with
  | zero => exact ⟨0, rfl, fun t ht => absurd ht (Nat.not_lt_zero t)⟩
  | step j hj hu _ ih =>
    obtain ⟨k, hk, hts⟩ := ih
    refine ⟨k + 1, ?_, ?_⟩
    · rwa [Function.iterate_succ_apply]
    · intro t ht
      match t with
      | 0 => exact ⟨hu, hj⟩
      | t + 1 =>
        rw [Function.iterate_succ_apply]
        exact hts t (Nat.lt_of_succ_lt_succ ht)

/-- From a reach derivation whose visited columns lie in `{0, …, n}`,
extract an iterate of length at most `n` hitting 0 (the minimal chain has
pairwise distinct nonzero visited nodes, of which there are at most `n`). -/
theorem ReachZ.iterate_bound {way : ℕ → ℕ} {used : ℕ → Bool} {n x : ℕ}
    (husedle : ∀ j, used j = true → j ≤ n) (h : ReachZ way used x) :
    ∃ k, k ≤ n ∧ way^[k] x = 0 := by
  obtain ⟨k0, hk0, hts0⟩ := h.to_iterate
  have hex : ∃ k, way^[k] x = 0 := ⟨k0, hk0⟩
  classical
  let k := Nat.find hex
  have hkk : way^[k] x = 0 := Nat.find_spec hex
  have hkle : k ≤ k0 := Nat.find_le hk0
  have hts : ∀ t, t < k → used (way^[t] x) = true ∧ way^[t] x ≠ 0 := fun t ht =>
    hts0 t (lt_of_lt_of_le ht hkle)
  refine ⟨k, ?_, hkk⟩
  -- the chain nodes `way^[t] x`, `t < k`, are pairwise distinct elements of `Icc 1 n`
  have hinj : Set.InjOn (fun t => way^[t] x) (Finset.range k) := by
    intro a ha b hb hab0
    have hab : way^[a] x = way^[b] x := hab0
    simp only [Finset.coe_range, Set.mem_Iio] at ha hb
    by_contra hne
    -- wlog a < b
    rcases Nat.lt_or_ge a b with hlt | hge
    · have : way^[a + (k - b)] x = 0 := by
        have : way^[k - b] (way^[b] x) = 0 := by
          rw [← Function.iterate_add_apply, Nat.sub_add_cancel (le_of_lt hb)]
          exact hkk
        calc way^[a + (k - b)] x = way^[k - b + a] x := by rw [Nat.add_comm]
        _ = way^[k - b] (way^[a] x) := Function.iterate_add_apply _ _ _ _
        _ = way^[k - b] (way^[b] x) := by rw [hab]
        _ = 0 := this
      have hlt' : a + (k - b) < k := by omega
      exact (Nat.find_min hex hlt') this
    · have hlt : b < a := lt_of_le_of_ne hge (fun he => hne he.symm)
      have : way^[b + (k - a)] x = 0 := by
        have : way^[k - a] (way^[a] x) = 0 := by
          rw [← Function.iterate_add_apply, Nat.sub_add_cancel (le_of_lt ha)]
          exact hkk
        calc way^[b + (k - a)] x = way^[k - a + b] x := by rw [Nat.add_comm]
        _ = way^[k - a] (way^[b] x) := Function.iterate_add_apply _ _ _ _
        _ = way^[k - a] (way^[a] x) := by rw [hab]
        _ = 0 := this
      have hlt' : b + (k - a) < k := by omega
      exact (Nat.find_min hex hlt') this
  have hmaps : ∀ t ∈ Finset.range k, (fun t => way^[t] x) t ∈ Finset.Icc 1 n := by
    intro t ht
    rw [Finset.mem_range] at ht
    obtain ⟨hu, hnz⟩ := hts t ht
    exact Finset.mem_Icc.mpr ⟨Nat.one_le_iff_ne_zero.mpr hnz, husedle _ hu⟩
  have hcard := Finset.card_le_card_of_injOn _ hmaps hinj
  simpa using hcard

/-- The backtrack loop terminates whenever some iterate of `way` from the
start column hits 0 within the fuel. -/
theorem backtrack_total (way : ℕ → ℕ) :
    ∀ fuel k p j0, way^[k] j0 = 0 → k ≤ fuel →
      ∃ p', backtrack way fuel p j0 = some p' := by
  intro fuel
  induction fuel with
  | zero =>
    intro k p j0 hk hle
    have hk0 : k = 0 := Nat.le_zero.mp hle
    rw [hk0] at hk
    have h0 : j0 = 0 := hk
    exact ⟨p, by simp [backtrack, h0]⟩
  | succ fuel ih =>
    intro k p j0 hk hle
    by_cases hj0 : j0 = 0
    · exact ⟨p, by simp [backtrack, hj0]⟩
    · have hkpos : k ≠ 0 := by
        intro he; rw [he] at hk; exact hj0 hk
      obtain ⟨k', rfl⟩ := Nat.exists_eq_succ_of_ne_zero hkpos
      rw [Function.iterate_succ_apply] at hk
      obtain ⟨p', hp'⟩ := ih k' (Function.update p j0 (p (way j0))) (way j0) hk
        (Nat.le_of_succ_le_succ hle)
      exact ⟨p', by simp [backtrack, hj0, hp']⟩

/-- The backtrack loop preserves partial injectivity: it rotates values
along the `way` chain, keeping the exclusion at the current column, and
its output values are drawn from the input values. -/
theorem backtrack_inj (n : ℕ) (way : ℕ → ℕ) (hway : ∀ j, way j ≤ n) :
    ∀ fuel p j0 p', j0 ≤ n → InjExc n p j0 →
      backtrack way fuel p j0 = some p' →
      InjExc n p' 0 ∧ ∀ j, j ≤ n → ∃ j', j' ≤ n ∧ p' j = p j' := by
  intro fuel
  induction fuel with
  | zero =>
    intro p j0 p' hj0n hinj hbt
    simp only [backtrack] at hbt
    by_cases hj0 : j0 = 0
    · rw [if_pos hj0] at hbt
      cases hbt
      subst hj0
      exact ⟨hinj, fun j hj => ⟨j, hj, rfl⟩⟩
    · rw [if_neg hj0] at hbt; cases hbt
  | succ fuel ih =>
    intro p j0 p' hj0n hinj hbt
    simp only [backtrack] at hbt
    by_cases hj0 : j0 = 0
    · rw [if_pos hj0] at hbt
      cases hbt
      subst hj0
      exact ⟨hinj, fun j hj => ⟨j, hj, rfl⟩⟩
    · rw [if_neg hj0] at hbt
      by_cases hfix : way j0 = j0
      · -- the update writes back the same value: the state is unchanged
        have hupd : Function.update p j0 (p (way j0)) = p := by
          rw [hfix]; exact Function.update_eq_self j0 p
        rw [hupd, hfix] at hbt
        exact ih p j0 p' hj0n hinj hbt
      · have hinj1 : InjExc n (Function.update p j0 (p (way j0))) (way j0) := by
          intro x y hx hy hxe hye hnz hxy
          by_cases hxj : x = j0 <;> by_cases hyj : y = j0
          · rw [hxj, hyj]
          · rw [hxj] at hnz hxy
            rw [Function.update_same] at hnz hxy
            rw [Function.update_noteq hyj] at hxy
            exact absurd (hinj (way j0) y (hway j0) hy hfix hyj hnz hxy).symm hye
          · rw [hyj] at hxy
            rw [Function.update_noteq hxj] at hnz hxy
            rw [Function.update_same] at hxy
            exact absurd (hinj x (way j0) hx (hway j0) hxj hfix hnz hxy) hxe
          · rw [Function.update_noteq hxj] at hnz hxy
            rw [Function.update_noteq hyj] at hxy
            exact hinj x y hx hy hxj hyj hnz hxy
        obtain ⟨hinj', hsub⟩ := ih _ (way j0) p' (hway j0) hinj1 hbt
        refine ⟨hinj', fun j hj => ?_⟩
        obtain ⟨j', hj', he⟩ := hsub j hj
        by_cases hj'0 : j' = j0
        · rw [hj'0, Function.update_same] at he
          exact ⟨way j0, hway j0, he⟩
        · rw [Function.update_noteq hj'0] at he
          exact ⟨j', hj', he⟩

/-- Every backtrack pointer after a scan is either unchanged or points to
the scan's current column. -/
theorem scanCols_way_shape (matrix : ℕ → ℕ → ℚ) (u v : ℕ → ℚ) (used : ℕ → Bool)
    (i0 j0 : ℕ) :
    ∀ js minv way delta j1 j,
      (scanCols matrix u v used i0 j0 js minv way delta j1).2.1 j = way j
        ∨ (scanCols matrix u v used i0 j0 js minv way delta j1).2.1 j = j0 := by
  intro js
  induction js with
  | nil => intro minv way delta j1 j; exact Or.inl rfl
  | cons a js ih =>
    intro minv way delta j1 j
    by_cases hu : used a = true
    · simp only [scanCols, hu, if_true]
      exact ih minv way delta j1 j
    · rw [Bool.not_eq_true] at hu
      simp only [scanCols, hu, Bool.false_eq_true, if_false]
      by_cases hlt : ltOpt (matrix (i0 - 1) (a - 1) - u i0 - v a) (minv a) = true
      · simp only [hlt, if_true]
        rcases ih (Function.update minv a (some (matrix (i0 - 1) (a - 1) - u i0 - v a)))
          (Function.update way a j0) _ _ j with h | h
        · by_cases haj : j = a
          · rw [h, haj, Function.update_same]; exact Or.inr rfl
          · rw [h, Function.update_noteq haj]; exact Or.inl rfl
        · exact Or.inr h
      · rw [Bool.not_eq_true] at hlt
        simp only [hlt, Bool.false_eq_true, if_false]
        exact ih minv way _ _ j

/-- A scan never erases a tentative column minimum. -/
theorem scanCols_minv_mono (matrix : ℕ → ℕ → ℚ) (u v : ℕ → ℚ) (used : ℕ → Bool)
    (i0 j0 : ℕ) :
    ∀ js minv way delta j1 j, minv j ≠ none →
      (scanCols matrix u v used i0 j0 js minv way delta j1).1 j ≠ none := by
  intro js
  induction js with
  | nil => intro minv way delta j1 j h; exact h
  | cons a js ih =>
    intro minv way delta j1 j h
    by_cases hu : used a = true
    · simp only [scanCols, hu, if_true]
      exact ih minv way delta j1 j h
    · rw [Bool.not_eq_true] at hu
      simp only [scanCols, hu, Bool.false_eq_true, if_false]
      by_cases hlt : ltOpt (matrix (i0 - 1) (a - 1) - u i0 - v a) (minv a) = true
      · simp only [hlt, if_true]
        refine ih _ _ _ _ j ?_
        by_cases haj : j = a
        · rw [haj, Function.update_same]; simp
        · rwa [Function.update_noteq haj]
      · rw [Bool.not_eq_true] at hlt
        simp only [hlt, Bool.false_eq_true, if_false]
        exact ih minv way _ _ j h

/-- `∞ < x` never holds. -/
theorem ltOptOpt_none_left (y : Option ℚ) : ltOptOpt none y = false := rfl

/-- A finite value is below `∞`. -/
theorem ltOptOpt_some_none (x : ℚ) : ltOptOpt (some x) none = true := rfl

/-- Anything is below an `∞` tentative minimum. -/
theorem ltOpt_none (q : ℚ) : ltOpt q none = true := rfl

/-- After a scan, the chosen `delta` is finite and the chosen column `j1`
is an unused in-range column whose tentative minimum is finite, and the
two are absent together. -/
theorem scanCols_j1_spec (matrix : ℕ → ℕ → ℚ) (u v : ℕ → ℚ) (used : ℕ → Bool)
    (i0 j0 nb : ℕ) :
    ∀ js minv way delta j1,
      (∀ j ∈ js, 1 ≤ j ∧ j ≤ nb) →
      (delta = none ↔ j1 = none) →
      (∀ jn, j1 = some jn → used jn = false ∧ minv jn ≠ none ∧ 1 ≤ jn ∧ jn ≤ nb) →
      ((scanCols matrix u v used i0 j0 js minv way delta j1).2.2.1 = none
        ↔ (scanCols matrix u v used i0 j0 js minv way delta j1).2.2.2 = none)
      ∧ (∀ jn, (scanCols matrix u v used i0 j0 js minv way delta j1).2.2.2 = some jn →
          used jn = false
            ∧ (scanCols matrix u v used i0 j0 js minv way delta j1).1 jn ≠ none
            ∧ 1 ≤ jn ∧ jn ≤ nb) := by
  intro js
  induction js with
  | nil =>
    intro minv way delta j1 _ hq1 hq2
    exact ⟨hq1, hq2⟩
  | cons a js ih =>
    intro minv way delta j1 hjs hq1 hq2
    have hjsr : ∀ j ∈ js, 1 ≤ j ∧ j ≤ nb := fun j hj => hjs j (List.mem_cons_of_mem a hj)
    by_cases hu : used a = true
    · simp only [scanCols, hu, if_true]
      exact ih minv way delta j1 hjsr hq1 hq2
    · rw [Bool.not_eq_true] at hu
      simp only [scanCols, hu, Bool.false_eq_true, if_false]
      by_cases hlt : ltOpt (matrix (i0 - 1) (a - 1) - u i0 - v a) (minv a) = true
      · simp only [hlt, if_true]
        set cur := matrix (i0 - 1) (a - 1) - u i0 - v a with hcur
        have hma : Function.update minv a (some cur) a = some cur := Function.update_same _ _ _
        by_cases hlt2 : ltOptOpt (Function.update minv a (some cur) a) delta = true
        · simp only [hlt2, if_true]
          refine ih _ _ _ _ hjsr ?_ ?_
          · rw [hma]
            constructor
            · intro h; cases h
            · intro h; cases h
          · intro jn hjn
            cases hjn
            refine ⟨hu, ?_, (hjs a (List.mem_cons_self a js)).1, (hjs a (List.mem_cons_self a js)).2⟩
            rw [hma]; simp
        · simp only [hlt2, Bool.false_eq_true, if_false]
          refine ih _ _ _ _ hjsr hq1 ?_
          intro jn hjn
          obtain ⟨h1, h2, h3, h4⟩ := hq2 jn hjn
          refine ⟨h1, ?_, h3, h4⟩
          by_cases hna : jn = a
          · rw [hna, hma]; simp
          · rwa [Function.update_noteq hna]
      · rw [Bool.not_eq_true] at hlt
        simp only [hlt, Bool.false_eq_true, if_false]
        -- the tentative minimum at `a` kept its finite value
        have hmna : minv a ≠ none := by
          intro he
          rw [he, ltOpt_none] at hlt
          cases hlt
        by_cases hlt2 : ltOptOpt (minv a) delta = true
        · simp only [hlt2, if_true]
          refine ih _ _ _ _ hjsr ?_ ?_
          · constructor
            · intro h; exact absurd h hmna
            · intro h; cases h
          · intro jn hjn
            cases hjn
            exact ⟨hu, hmna, (hjs a (List.mem_cons_self a js)).1,
              (hjs a (List.mem_cons_self a js)).2⟩
        · simp only [hlt2, Bool.false_eq_true, if_false]
          exact ih _ _ _ _ hjsr hq1 hq2

/-- A scan that still sees an unused column (or already has a finite
`delta`) produces a finite `delta`. -/
theorem scanCols_delta_some (matrix : ℕ → ℕ → ℚ) (u v : ℕ → ℚ) (used : ℕ → Bool)
    (i0 j0 : ℕ) :
    ∀ js minv way delta j1,
      (delta ≠ none ∨ ∃ jz ∈ js, used jz = false) →
      (scanCols matrix u v used i0 j0 js minv way delta j1).2.2.1 ≠ none := by
  intro js
  induction js with
  | nil =>
    intro minv way delta j1 h
    rcases h with h | ⟨jz, hm, _⟩
    · exact h
    · cases hm
  | cons a js ih =>
    intro minv way delta j1 h
    by_cases hu : used a = true
    · simp only [scanCols, hu, if_true]
      refine ih minv way delta j1 ?_
      rcases h with h | ⟨jz, hm, hz⟩
      · exact Or.inl h
      · rcases List.mem_cons.mp hm with rfl | hm'
        · rw [hu] at hz; cases hz
        · exact Or.inr ⟨jz, hm', hz⟩
    · rw [Bool.not_eq_true] at hu
      simp only [scanCols, hu, Bool.false_eq_true, if_false]
      by_cases hlt : ltOpt (matrix (i0 - 1) (a - 1) - u i0 - v a) (minv a) = true
      · simp only [hlt, if_true]
        set cur := matrix (i0 - 1) (a - 1) - u i0 - v a with hcur
        have hma : Function.update minv a (some cur) a = some cur := Function.update_same _ _ _
        refine ih _ _ _ _ (Or.inl ?_)
        rw [hma]
        rcases hd : delta with _ | dq
        · simp [ltOptOpt_some_none]
        · by_cases hlt2 : ltOptOpt (some cur) (some dq) = true
          · simp [hlt2]
          · rw [Bool.not_eq_true] at hlt2
            simp [hlt2]
      · rw [Bool.not_eq_true] at hlt
        simp only [hlt, Bool.false_eq_true, if_false]
        have hmna : minv a ≠ none := by
          intro he
          rw [he, ltOpt_none] at hlt
          cases hlt
        refine ih _ _ _ _ (Or.inl ?_)
        rcases hm : minv a with _ | mq
        · exact absurd hm hmna
        · rcases hd : delta with _ | dq
          · simp [ltOptOpt_some_none]
          · by_cases hlt2 : ltOptOpt (some mq) (some dq) = true
            · simp [hlt2]
            · rw [Bool.not_eq_true] at hlt2
              simp [hlt2]

/-- A scan preserves the pointer invariant: every column with a finite
tentative minimum has a visited backtrack pointer that reaches column 0
(the current visited column `j0` itself reaches 0). -/
theorem scanCols_winv (matrix : ℕ → ℕ → ℚ) (u v : ℕ → ℚ) (used : ℕ → Bool)
    (i0 j0 : ℕ) (hj0u : used j0 = true) :
    ∀ js minv way delta j1,
      ReachZ way used j0 →
      (∀ j, minv j ≠ none → used (way j) = true ∧ ReachZ way used (way j)) →
      ∀ j, (scanCols matrix u v used i0 j0 js minv way delta j1).1 j ≠ none →
        used ((scanCols matrix u v used i0 j0 js minv way delta j1).2.1 j) = true
          ∧ ReachZ (scanCols matrix u v used i0 j0 js minv way delta j1).2.1 used
              ((scanCols matrix u v used i0 j0 js minv way delta j1).2.1 j) := by
  intro js
  induction js with
  | nil =>
    intro minv way delta j1 _ hW j hj
    exact hW j hj
  | cons a js ih =>
    intro minv way delta j1 hj0r hW j
    by_cases hu : used a = true
    · simp only [scanCols, hu, if_true]
      exact ih minv way delta j1 hj0r hW j
    · rw [Bool.not_eq_true] at hu
      simp only [scanCols, hu, Bool.false_eq_true, if_false]
      by_cases hlt : ltOpt (matrix (i0 - 1) (a - 1) - u i0 - v a) (minv a) = true
      · simp only [hlt, if_true]
        set cur := matrix (i0 - 1) (a - 1) - u i0 - v a with hcur
        refine ih _ _ _ _ (hj0r.update_unused hu) ?_ j
        intro x hx
        by_cases hxa : x = a
        · rw [hxa, Function.update_same]
          exact ⟨hj0u, hj0r.update_unused hu⟩
        · rw [Function.update_noteq hxa] at hx
          obtain ⟨h1, h2⟩ := hW x hx
          rw [Function.update_noteq hxa]
          exact ⟨h1, h2.update_unused hu⟩
      · rw [Bool.not_eq_true] at hlt
        simp only [hlt, Bool.false_eq_true, if_false]
        exact ih _ _ _ _ hj0r hW j

/-- The potentials update shifts tentative minima but never changes which
of them are finite. -/
theorem updatePotentials_minv_none (p : ℕ → ℕ) (used : ℕ → Bool) (dq : ℚ) :
    ∀ js u v minv j,
      ((updatePotentials p used dq js u v minv).2.2 j = none ↔ minv j = none) := by
  intro js
  induction js with
  | nil => intro u v minv j; exact Iff.rfl
  | cons a js ih =>
    intro u v minv j
    by_cases hu : used a = true
    · simp only [updatePotentials, hu, if_true]
      exact ih _ _ minv j
    · rw [Bool.not_eq_true] at hu
      simp only [updatePotentials, hu, Bool.false_eq_true, if_false]
      rw [ih]
      by_cases hja : j = a
      · rw [hja, Function.update_same]
        rcases hm : minv a with _ | mq <;> simp [subOpt]
      · rw [Function.update_noteq hja]

/-- Marking an unvisited in-range column visited decreases the unvisited
count by one. -/
theorem unusedCard_update {used : ℕ → Bool} {n j0 : ℕ} (hj0 : used j0 = false)
    (hj0n : j0 ≤ n) :
    unusedCard (Function.update used j0 true) n + 1 = unusedCard used n := by
  have hmem : j0 ∈ (Finset.range (n + 1)).filter (fun j => used j = false) := by
    simp [Finset.mem_filter, Finset.mem_range, Nat.lt_succ_of_le hj0n, hj0]
  have hset : (Finset.range (n + 1)).filter (fun j => Function.update used j0 true j = false)
      = ((Finset.range (n + 1)).filter (fun j => used j = false)).erase j0 := by
    ext x
    simp only [Finset.mem_filter, Finset.mem_erase, Finset.mem_range]
    constructor
    · rintro ⟨hx, hux⟩
      by_cases hxj : x = j0
      · rw [hxj, Function.update_same] at hux; cases hux
      · rw [Function.update_noteq hxj] at hux
        exact ⟨hxj, hx, hux⟩
    · rintro ⟨hxj, hx, hux⟩
      rw [Function.update_noteq hxj]
      exact ⟨hx, hux⟩
  have hpos : 0 < ((Finset.range (n + 1)).filter (fun j => used j = false)).card :=
    Finset.card_pos.mpr ⟨j0, hmem⟩
  simp only [unusedCard]
  rw [hset, Finset.card_erase_of_mem hmem]
  omega

/-- Master invariant lemma for the augmenting-path search: with a free
unused column available, valid backtrack pointers, and fuel exceeding the
unvisited count, the search succeeds and breaks at a free in-range column
`jbrk` whose `way` chain reaches column 0 within `n + 1` steps. -/
theorem searchLoop_spec (matrix : ℕ → ℕ → ℚ) (n : ℕ) (p : ℕ → ℕ) :
    ∀ fuel u v way minv used j0,
      (∀ j, used j = true → j ≤ n) →
      (∀ j, way j ≤ n) →
      (∃ jz, 1 ≤ jz ∧ jz ≤ n ∧ p jz = 0 ∧ used jz = false) →
      (∀ j, minv j ≠ none → used (way j) = true ∧ ReachZ way used (way j)) →
      used j0 = false → j0 ≤ n →
      (j0 = 0 ∨ minv j0 ≠ none) →
      (j0 = 0 ∨ p j0 ≠ 0) →
      unusedCard used n < fuel →
      ∃ u' v' way' jbrk,
        searchLoop matrix n fuel u v p way minv used j0 = some (u', v', way', jbrk)
          ∧ 1 ≤ jbrk ∧ jbrk ≤ n ∧ p jbrk = 0
          ∧ (∀ j, way' j ≤ n)
          ∧ ∃ k, k ≤ n + 1 ∧ way'^[k] jbrk = 0 := by
  intro fuel
  induction fuel with
  | zero =>
    intro u v way minv used j0 _ _ _ _ _ _ _ _ hfuel
    exact absurd hfuel (Nat.not_lt_zero _)
  | succ fuel ih =>
    intro u v way minv used j0 husedle hwayle hfree hW hj0u hj0n hj0m hj0p hfuel
    obtain ⟨jz, hjz1, hjzn, hjzp, hjzu⟩ := hfree
    have hjzj0 : jz ≠ j0 := by
      rcases hj0p with h0 | hp0
      · rw [h0]; omega
      · intro he; rw [← he] at hp0; exact hp0 hjzp
    -- the visited set after marking the current column
    have husedle₁ : ∀ j, Function.update used j0 true j = true → j ≤ n := by
      intro j hj
      by_cases hjj : j = j0
      · rw [hjj]; exact hj0n
      · rw [Function.update_noteq hjj] at hj
        exact husedle j hj
    have hmono : ∀ j, used j = true → Function.update used j0 true j = true := by
      intro j hj
      by_cases hjj : j = j0
      · rw [hjj, Function.update_same]
      · rwa [Function.update_noteq hjj]
    have hjzu₁ : Function.update used j0 true jz = false := by
      rw [Function.update_noteq hjzj0]; exact hjzu
    have hj0u₁ : Function.update used j0 true j0 = true := Function.update_same _ _ _
    have hj0r₁ : ReachZ way (Function.update used j0 true) j0 := by
      by_cases hj00 : j0 = 0
      · rw [hj00]; exact ReachZ.zero
      · have hm : minv j0 ≠ none := hj0m.resolve_left hj00
        obtain ⟨hu', hr'⟩ := hW j0 hm
        exact ReachZ.step j0 hj00 hj0u₁ (hr'.mono hmono)
    have hW₁ : ∀ j, minv j ≠ none →
        Function.update used j0 true (way j) = true
          ∧ ReachZ way (Function.update used j0 true) (way j) := by
      intro j hj
      obtain ⟨hu', hr'⟩ := hW j hj
      exact ⟨hmono _ hu', hr'.mono hmono⟩
    -- the scan's outcome
    have hjzmem : jz ∈ List.range' 1 n := by
      rw [List.mem_range'_1]; omega
    have hdelta := scanCols_delta_some matrix u v (Function.update used j0 true) (p j0) j0
      (List.range' 1 n) minv way none none (Or.inr ⟨jz, hjzmem, hjzu₁⟩)
    have hspec := scanCols_j1_spec matrix u v (Function.update used j0 true) (p j0) j0 n
      (List.range' 1 n) minv way none none
      (fun j hj => by rw [List.mem_range'_1] at hj; omega)
      ⟨fun _ => rfl, fun _ => rfl⟩ (fun jn hjn => by cases hjn)
    have hWafter := scanCols_winv matrix u v (Function.update used j0 true) (p j0) j0
      hj0u₁ (List.range' 1 n) minv way none none hj0r₁ hW₁
    have hwayshape := scanCols_way_shape matrix u v (Function.update used j0 true) (p j0) j0
      (List.range' 1 n) minv way none none
    set r := scanCols matrix u v (Function.update used j0 true) (p j0) j0
      (List.range' 1 n) minv way none none with hr
    have hway₁ : ∀ j, r.2.1 j ≤ n := by
      intro j
      rcases hwayshape j with h | h
      · rw [h]; exact hwayle j
      · rw [h]; exact hj0n
    rcases hd : r.2.2.1 with _ | dq
    · exact absurd hd hdelta
    have hj1 : r.2.2.2 ≠ none := by
      intro he
      rw [hspec.1.mpr he] at hd
      cases hd
    rcases hj : r.2.2.2 with _ | jn
    · exact absurd hj hj1
    obtain ⟨hjnu, hjnm, hjn1, hjnn⟩ := hspec.2 jn hj
    -- one unfolding of the loop
    have hstep : searchLoop matrix n (fuel + 1) u v p way minv used j0 =
        (if p jn = 0 then
          some ((updatePotentials p (Function.update used j0 true) dq
                  (List.range (n + 1)) u v r.1).1,
                (updatePotentials p (Function.update used j0 true) dq
                  (List.range (n + 1)) u v r.1).2.1,
                r.2.1, jn)
        else searchLoop matrix n fuel
          (updatePotentials p (Function.update used j0 true) dq
            (List.range (n + 1)) u v r.1).1
          (updatePotentials p (Function.update used j0 true) dq
            (List.range (n + 1)) u v r.1).2.1
          p r.2.1
          (updatePotentials p (Function.update used j0 true) dq
            (List.range (n + 1)) u v r.1).2.2
          (Function.update used j0 true) jn) := by
      simp only [searchLoop]
      rw [← hr, hd, hj]
    by_cases hpjn : p jn = 0
    · rw [if_pos hpjn] at hstep
      obtain ⟨hu2, hr2⟩ := hWafter jn hjnm
      obtain ⟨k, hkn, hk0⟩ := ReachZ.iterate_bound husedle₁ hr2
      refine ⟨_, _, r.2.1, jn, hstep, hjn1, hjnn, hpjn, hway₁, k + 1, by omega, ?_⟩
      rw [Function.iterate_succ_apply]
      exact hk0
    · rw [if_neg hpjn] at hstep
      have hup := updatePotentials_minv_none p (Function.update used j0 true) dq
        (List.range (n + 1)) u v r.1
      have hW₂ : ∀ j,
          (updatePotentials p (Function.update used j0 true) dq
            (List.range (n + 1)) u v r.1).2.2 j ≠ none →
          Function.update used j0 true (r.2.1 j) = true
            ∧ ReachZ r.2.1 (Function.update used j0 true) (r.2.1 j) := by
        intro j hj
        refine hWafter j ?_
        intro he
        exact hj ((hup j).mpr he)
      have hfuel₁ : unusedCard (Function.update used j0 true) n < fuel := by
        have := unusedCard_update hj0u hj0n
        omega
      obtain ⟨u', v', way', jbrk, heq, h1, h2, h3, h4, h5⟩ :=
        ih _ _ r.2.1 _ (Function.update used j0 true) jn husedle₁ hway₁
          ⟨jz, hjz1, hjzn, hjzp, hjzu₁⟩ hW₂ hjnu hjnn
          (Or.inr (fun he => hjnm ((hup jn).mp he))) (Or.inr hpjn) hfuel₁
      exact ⟨u', v', way', jbrk, hstep.trans heq, h1, h2, h3, h4, h5⟩

/-- Master invariant lemma for the outer rounds: starting a round block
`i, i+1, …, n` with an assignment that is injective off position 0 and
whose values are below `i`, all rounds succeed and produce an assignment
injective on its nonzero entries over columns `1, …, n`. -/
theorem hungarianRounds_spec (matrix : ℕ → ℕ → ℚ) (n : ℕ) :
    ∀ k i u v p way,
      i + k = n + 1 → 1 ≤ i →
      (∀ j, way j ≤ n) →
      InjExc n p 0 →
      (∀ j, j ≤ n → p j < i) →
      ∃ p', hungarianRounds matrix n (List.range' i k) u v p way = some p'
        ∧ InjExc n p' 0
        ∧ (∀ j, j ≤ n → p' j ≤ n) := by
  intro k
  induction k with
  | zero =>
    intro i u v p way hik _ _ hinj hbound
    refine ⟨p, rfl, hinj, fun j hj => ?_⟩
    have := hbound j hj
    omega
  | succ k ih =>
    intro i u v p way hik hi1 hwayle hinj hbound
    have hin : i ≤ n := by omega
    set p0 := Function.update p 0 i with hp0
    -- the fresh assignment is injective on all of `0, …, n`
    have hInjFull : ∀ x y, x ≤ n → y ≤ n → p0 x ≠ 0 → p0 x = p0 y → x = y := by
      intro x y hx hy hnz hxy
      rw [hp0] at hnz hxy
      by_cases hx0 : x = 0 <;> by_cases hy0 : y = 0
      · rw [hx0, hy0]
      · rw [hx0, Function.update_same, Function.update_noteq hy0] at hxy
        have := hbound y hy
        omega
      · rw [hy0, Function.update_same, Function.update_noteq hx0] at hxy
        have := hbound x hx
        omega
      · rw [Function.update_noteq hx0] at hnz hxy
        rw [Function.update_noteq hy0] at hxy
        exact hinj x y hx hy hx0 hy0 hnz hxy
    -- a free column exists: at most `i - 1 < n` columns hold a row
    have hfree : ∃ jz, 1 ≤ jz ∧ jz ≤ n ∧ p0 jz = 0 ∧ (fun _ => false) jz = false := by
      have hcard : ((Finset.Icc 1 n).filter (fun j => p j ≠ 0)).card
          ≤ (Finset.Icc 1 (i - 1)).card := by
        refine Finset.card_le_card_of_injOn p ?_ ?_
        · intro j hj
          rw [Finset.mem_filter, Finset.mem_Icc] at hj
          rw [Finset.mem_Icc]
          have := hbound j hj.1.2
          have := hj.2
          omega
        · intro x hx y hy hxy
          rw [Finset.coe_filter] at hx hy
          obtain ⟨hx1, hx2⟩ := hx
          obtain ⟨hy1, hy2⟩ := hy
          rw [Finset.mem_Icc] at hx1 hy1
          exact hinj x y hx1.2 hy1.2 (by omega) (by omega) hx2 hxy
      have hlt : ((Finset.Icc 1 n).filter (fun j => p j ≠ 0)).card
          < (Finset.Icc 1 n).card := by
        rw [Nat.card_Icc] at hcard ⊢
        omega
      obtain ⟨jz, hjzm, hjznm⟩ : ∃ jz ∈ Finset.Icc 1 n,
          jz ∉ (Finset.Icc 1 n).filter (fun j => p j ≠ 0) := by
        by_contra hc
        push_neg at hc
        exact absurd (Finset.card_le_card hc) (Nat.not_le.mpr hlt)
      rw [Finset.mem_Icc] at hjzm
      rw [Finset.mem_filter] at hjznm
      push_neg at hjznm
      have hjz0 : p jz = 0 := hjznm (Finset.mem_Icc.mpr hjzm)
      refine ⟨jz, hjzm.1, hjzm.2, ?_, rfl⟩
      rw [hp0, Function.update_noteq (by omega : jz ≠ 0)]
      exact hjz0
    obtain ⟨u', v', way', jbrk, heq, hb1, hb2, hb3, hway', kk, hkk, hkk0⟩ :=
      searchLoop_spec matrix n p0 (n + 2) u v way (fun _ => none) (fun _ => false) 0
        (fun j h => by cases h) hwayle hfree
        (fun j h => absurd rfl h) rfl (Nat.zero_le n) (Or.inl rfl) (Or.inl rfl)
        (by simp [unusedCard])
    obtain ⟨p1, hbt⟩ := backtrack_total way' (n + 2) kk p0 jbrk hkk0 (by omega)
    have hInjExc : InjExc n p0 jbrk := by
      intro x y hx hy _ _ hnz hxy
      exact hInjFull x y hx hy hnz hxy
    obtain ⟨hinj1, hsub⟩ := backtrack_inj n way' hway' (n + 2) p0 jbrk p1 hb2 hInjExc hbt
    have hbound1 : ∀ j, j ≤ n → p1 j < i + 1 := by
      intro j hj
      obtain ⟨j', hj', he⟩ := hsub j hj
      rw [he]
      by_cases hj'0 : j' = 0
      · rw [hj'0, hp0, Function.update_same]; omega
      · rw [hp0, Function.update_noteq hj'0]
        have := hbound j' hj'
        omega
    obtain ⟨p', hrec, hinj', hble'⟩ := ih (i + 1) u' v' p1 way' (by omega) (by omega)
      hway' hinj1 hbound1
    refine ⟨p', ?_, hinj', hble'⟩
    rw [List.range'_succ i k 1]
    simp only [hungarianRounds]
    rw [← hp0, heq]
    dsimp only
    rw [hbt]
    exact hrec

/-- Pairwise compatibility transfers along `filterMap`, with access to
list membership. -/
theorem pairwise_filterMap_strong {α β : Type} (f : α → Option β)
    {R : α → α → Prop} {S : β → β → Prop} :
    ∀ l : List α, l.Pairwise R →
      (∀ a a', a ∈ l → a' ∈ l → R a a' →
        ∀ b b', f a = some b → f a' = some b' → S b b') →
      (l.filterMap f).Pairwise S := by
  intro l
  induction l with
  | nil => intro _ _; simp
  | cons a l ih =>
    intro hpw hcomp
    rw [List.pairwise_cons] at hpw
    rw [List.filterMap_cons]
    rcases hfa : f a with _ | b
    · exact ih hpw.2 (fun x x' hx hx' => hcomp x x'
        (List.mem_cons_of_mem a hx) (List.mem_cons_of_mem a hx'))
    · rw [List.pairwise_cons]
      constructor
      · intro b' hb'
        rw [List.mem_filterMap] at hb'
        obtain ⟨a', ha', hfa'⟩ := hb'
        exact hcomp a a' (List.mem_cons_self a l) (List.mem_cons_of_mem a ha')
          (hpw.1 a' ha') b b' hfa hfa'
      · exact ih hpw.2 (fun x x' hx hx' => hcomp x x'
          (List.mem_cons_of_mem a hx) (List.mem_cons_of_mem a hx'))

/-- A duplicate-free list of naturals all below `m` has at most `m`
elements. -/
theorem nodup_length_le_of_lt {l : List ℕ} {m : ℕ} (hnd : l.Nodup)
    (hlt : ∀ x ∈ l, x < m) : l.length ≤ m := by
  have hsub : l.toFinset ⊆ Finset.range m := by
    intro x hx
    rw [List.mem_toFinset] at hx
    exact Finset.mem_range.mpr (hlt x hx)
  have := Finset.card_le_card hsub
  rwa [List.toFinset_card_of_nodup hnd, Finset.card_range] at this

/-- Helper: on every rectangular cost matrix (`m` columns per row) the
assignment solver succeeds, its pairs use each row index and each column
index at most once inside the original dimensions, there are at most
`min(n_rows, m)` of them, and an empty dimension yields the empty
assignment. -/
theorem hungarian_assignment_partial_matching_aux (cm : List (List ℚ)) (m : ℕ)
    (hrect : ∀ row ∈ cm, row.length = m) :
    ∃ res, hungarian_assignment cm = some res
      ∧ (res.map Prod.fst).Nodup
      ∧ (res.map Prod.snd).Nodup
      ∧ (∀ pr ∈ res, pr.1 < cm.length ∧ pr.2 < m)
      ∧ res.length ≤ min cm.length m
      ∧ ((cm = [] ∨ m = 0) → res = []) := by
  rcases cm with _ | ⟨r0, rest⟩
  · exact ⟨[], rfl, List.nodup_nil, List.nodup_nil,
      fun pr hpr => absurd hpr (List.not_mem_nil pr), by simp, fun _ => rfl⟩
  have hr0m : r0.length = m := hrect r0 (List.mem_cons_self r0 rest)
  by_cases hm0 : m = 0
  · have hr0e : r0 = [] := List.eq_nil_of_length_eq_zero (by rw [hr0m, hm0])
    refine ⟨[], ?_, List.nodup_nil, List.nodup_nil,
      fun pr hpr => absurd hpr (List.not_mem_nil pr), by simp, fun _ => rfl⟩
    simp only [hungarian_assignment]
    rw [if_pos hr0e]
  · have hr0e : r0 ≠ [] := by
      intro he
      rw [he] at hr0m
      exact hm0 (hr0m.symm)
    obtain ⟨p', hrounds, hinj, hple⟩ :=
      hungarianRounds_spec
        (fun i j => if i < (r0 :: rest).length ∧ j < r0.length
          then ((r0 :: rest).getD i []).getD j pad_cost else pad_cost)
        (max (r0 :: rest).length r0.length)
        (max (r0 :: rest).length r0.length) 1
        (fun _ => 0) (fun _ => 0) (fun _ => 0) (fun _ => 0)
        (by omega) le_rfl (fun j => Nat.zero_le _)
        (fun j j' _ _ _ _ hnz _ => absurd rfl hnz)
        (fun j _ => Nat.zero_lt_one)
    set n := max (r0 :: rest).length r0.length with hn
    set res := (List.range' 1 n).filterMap (fun j =>
      if p' j ≠ 0 ∧ p' j - 1 < (r0 :: rest).length ∧ j - 1 < r0.length
      then some (p' j - 1, j - 1) else none) with hres
    have hrun : hungarian_assignment (r0 :: rest) = some res := by
      simp only [hungarian_assignment]
      rw [if_neg hr0e]
      rw [hrounds]
    -- membership characterization
    have hmem : ∀ pr ∈ res, ∃ j, 1 ≤ j ∧ j ≤ n ∧ p' j ≠ 0
        ∧ p' j - 1 < (r0 :: rest).length ∧ j - 1 < r0.length
        ∧ pr = (p' j - 1, j - 1) := by
      intro pr hpr
      rw [hres, List.mem_filterMap] at hpr
      obtain ⟨j, hj, hfj⟩ := hpr
      rw [List.mem_range'_1] at hj
      by_cases hc : p' j ≠ 0 ∧ p' j - 1 < (r0 :: rest).length ∧ j - 1 < r0.length
      · rw [if_pos hc] at hfj
        cases hfj
        exact ⟨j, hj.1, by omega, hc.1, hc.2.1, hc.2.2, rfl⟩
      · rw [if_neg hc] at hfj
        cases hfj
    have hrowpw : res.Pairwise (fun pr pr' => pr.1 ≠ pr'.1) := by
      rw [hres]
      refine pairwise_filterMap_strong _ _ (List.pairwise_lt_range' 1 n 1 (by omega)) ?_
      intro a a' ha ha' hlt b b' hb hb'
      rw [List.mem_range'_1] at ha ha'
      by_cases hca : p' a ≠ 0 ∧ p' a - 1 < (r0 :: rest).length ∧ a - 1 < r0.length
      · rw [if_pos hca] at hb
        cases hb
        by_cases hca' : p' a' ≠ 0 ∧ p' a' - 1 < (r0 :: rest).length ∧ a' - 1 < r0.length
        · rw [if_pos hca'] at hb'
          cases hb'
          intro heq
          have hpp : p' a = p' a' := by
            have h1 : 1 ≤ p' a := Nat.one_le_iff_ne_zero.mpr hca.1
            have h2 : 1 ≤ p' a' := Nat.one_le_iff_ne_zero.mpr hca'.1
            simp only at heq
            omega
          have := hinj a a' (by omega) (by omega) (by omega) (by omega) hca.1 hpp
          omega
        · rw [if_neg hca'] at hb'
          cases hb'
      · rw [if_neg hca] at hb
        cases hb
    have hcolpw : res.Pairwise (fun pr pr' => pr.2 ≠ pr'.2) := by
      rw [hres]
      refine pairwise_filterMap_strong _ _ (List.pairwise_lt_range' 1 n 1 (by omega)) ?_
      intro a a' ha ha' hlt b b' hb hb'
      rw [List.mem_range'_1] at ha ha'
      by_cases hca : p' a ≠ 0 ∧ p' a - 1 < (r0 :: rest).length ∧ a - 1 < r0.length
      · rw [if_pos hca] at hb
        cases hb
        by_cases hca' : p' a' ≠ 0 ∧ p' a' - 1 < (r0 :: rest).length ∧ a' - 1 < r0.length
        · rw [if_pos hca'] at hb'
          cases hb'
          simp only
          omega
        · rw [if_neg hca'] at hb'
          cases hb'
      · rw [if_neg hca] at hb
        cases hb
    have hrownd : (res.map Prod.fst).Nodup := by
      rw [List.Nodup, List.pairwise_map]
      exact hrowpw
    have hcolnd : (res.map Prod.snd).Nodup := by
      rw [List.Nodup, List.pairwise_map]
      exact hcolpw
    have hbounds : ∀ pr ∈ res, pr.1 < (r0 :: rest).length ∧ pr.2 < m := by
      intro pr hpr
      obtain ⟨j, _, _, _, hb1, hb2, hpr'⟩ := hmem pr hpr
      rw [hpr']
      exact ⟨by omega, by omega⟩
    have hlen : res.length ≤ min (r0 :: rest).length m := by
      have hrows : res.length ≤ (r0 :: rest).length := by
        have := nodup_length_le_of_lt hrownd (fun x hx => by
          rw [List.mem_map] at hx
          obtain ⟨pr, hpr, hfx⟩ := hx
          rw [← hfx]
          exact (hbounds pr hpr).1)
        rwa [List.length_map] at this
      have hcols : res.length ≤ m := by
        have := nodup_length_le_of_lt hcolnd (fun x hx => by
          rw [List.mem_map] at hx
          obtain ⟨pr, hpr, hfx⟩ := hx
          rw [← hfx]
          exact (hbounds pr hpr).2)
        rwa [List.length_map] at this
      exact le_min hrows hcols
    refine ⟨res, hrun, hrownd, hcolnd, hbounds, hlen, ?_⟩
    rintro (he | he)
    · cases he
    · exact absurd he hm0

/-- C1: for every rectangular cost matrix (`m` columns per row), the
assignment solver succeeds and returns pairs in which each row index and
each column index occurs at most once, all indices lie inside the
original dimensions, the number of pairs is at most `min(n_rows, m)`,
and an empty row or column dimension yields the empty assignment. -/
theorem hungarian_assignment_partial_matching (cm : List (List ℚ)) (m : ℕ)
    (hrect : ∀ row ∈ cm, row.length = m) :
    ∃ res, hungarian_assignment cm = some res
      ∧ (res.map Prod.fst).Nodup
      ∧ (res.map Prod.snd).Nodup
      ∧ (∀ pr ∈ res, pr.1 < cm.length ∧ pr.2 < m)
      ∧ res.length ≤ min cm.length m
      ∧ ((cm = [] ∨ m = 0) → res = []) :=
  hungarian_assignment_partial_matching_aux cm m hrect

/-- Closed instantiation of the C1 theorem at a concrete 2×2 matrix. -/
theorem hungarian_assignment_partial_matching_witness :
    (∀ row ∈ [[(1 : ℚ), 2], [3, 4]], row.length = 2)
    ∧ ∃ res, hungarian_assignment [[(1 : ℚ), 2], [3, 4]] = some res
      ∧ (res.map Prod.fst).Nodup
      ∧ (res.map Prod.snd).Nodup
      ∧ (∀ pr ∈ res, pr.1 < ([[(1 : ℚ), 2], [3, 4]] : List (List ℚ)).length ∧ pr.2 < 2)
      ∧ res.length ≤ min ([[(1 : ℚ), 2], [3, 4]] : List (List ℚ)).length 2
      ∧ (([[(1 : ℚ), 2], [3, 4]] : List (List ℚ)) = [] ∨ 2 = 0 → res = []) :=
  ⟨by simp, hungarian_assignment_partial_matching [[1, 2], [3, 4]] 2 (by simp)⟩

/-- Python `list.index` returns the position it was given when the list
has no duplicate values. -/
theorem list_index_getD {α : Type} [DecidableEq α] :
    ∀ (l : List α), l.Nodup → ∀ (i : ℕ), i < l.length → ∀ d : α,
      list_index l (l.getD i d) = i := by
  intro l
  induction l with
  | nil => intro _ i hi; simp at hi
  | cons b bs ih =>
    intro hnd i hi d
    rw [List.nodup_cons] at hnd
    match i with
    | 0 => simp [list_index, List.findIdx_cons]
    | i + 1 =>
      have hi' : i < bs.length := by simpa using hi
      have hmem : bs.getD i d ∈ bs := by
        rw [List.getD_eq_getElem bs d hi']
        exact List.getElem_mem hi'
      have hne : ¬(b = bs.getD i d) := by
        intro he
        rw [he] at hnd
        exact hnd.1 hmem
      simp only [list_index, List.getD_cons_succ, List.findIdx_cons, hne,
        decide_False, cond_false]
      have := ih hnd.2 i hi' d
      rw [list_index] at this
      omega

/-- The per-pair loop of `score_sample` appends, for each matched pair in
order, one TP record when the classifier finds no mismatch and an FP+FN
record pair sharing the reasons otherwise. -/
theorem score_pairs_loop_details (sim : Str → Str → ℚ) (parse : Str → Option ℚ)
    (tol : TolLevel) (actual_events : List ExtractedEvent)
    (expected_events : List SidecarExpectedEvent) :
    ∀ prs st,
      (score_pairs_loop sim parse tol actual_events expected_events prs st).details
        = st.details ++ prs.flatMap (fun pr =>
            let rs := check_event_match sim parse pr.1 pr.2.1 tol
            if rs = [] then
              [{ classification := Classification.tp, actual_event := some pr.1,
                 expected_event := some pr.2.1, mismatch_reasons := [] }]
            else
              [{ classification := Classification.fp, actual_event := some pr.1,
                 expected_event := some pr.2.1, mismatch_reasons := rs },
               { classification := Classification.fn, actual_event := none,
                 expected_event := some pr.2.1, mismatch_reasons := rs }]) := by
  intro prs
  induction prs with
  | nil => intro st; simp [score_pairs_loop]
  | cons pr prs ih =>
    intro st
    obtain ⟨a, e, d⟩ := pr
    by_cases hrs : check_event_match sim parse a e tol = []
    · simp only [score_pairs_loop, hrs, eq_self_iff_true, if_true, List.flatMap_cons]
      rw [ih]
      simp [hrs, List.append_assoc]
    · simp only [score_pairs_loop, if_neg hrs, List.flatMap_cons]
      rw [ih]
      simp [hrs, List.append_assoc]

/-- Each matched pair contributes exactly one to `tp + fp_from_mismatch`. -/
theorem score_pairs_loop_tp_fp (sim : Str → Str → ℚ) (parse : Str → Option ℚ)
    (tol : TolLevel) (actual_events : List ExtractedEvent)
    (expected_events : List SidecarExpectedEvent) :
    ∀ prs st,
      (score_pairs_loop sim parse tol actual_events expected_events prs st).tp
          + (score_pairs_loop sim parse tol actual_events expected_events prs st).fp_from_mismatch
        = st.tp + st.fp_from_mismatch + prs.length := by
  intro prs
  induction prs with
  | nil => intro st; simp [score_pairs_loop]
  | cons pr prs ih =>
    intro st
    obtain ⟨a, e, d⟩ := pr
    by_cases hrs : check_event_match sim parse a e tol = []
    · simp only [score_pairs_loop, hrs, eq_self_iff_true, if_true]
      rw [ih]
      simp only [List.length_cons]
      omega
    · simp only [score_pairs_loop, if_neg hrs]
      rw [ih]
      simp only [List.length_cons]
      omega

/-- Each matched pair contributes exactly one to `tp + fn_from_mismatch`. -/
theorem score_pairs_loop_tp_fn (sim : Str → Str → ℚ) (parse : Str → Option ℚ)
    (tol : TolLevel) (actual_events : List ExtractedEvent)
    (expected_events : List SidecarExpectedEvent) :
    ∀ prs st,
      (score_pairs_loop sim parse tol actual_events expected_events prs st).tp
          + (score_pairs_loop sim parse tol actual_events expected_events prs st).fn_from_mismatch
        = st.tp + st.fn_from_mismatch + prs.length := by
  intro prs
  induction prs with
  | nil => intro st; simp [score_pairs_loop]
  | cons pr prs ih =>
    intro st
    obtain ⟨a, e, d⟩ := pr
    by_cases hrs : check_event_match sim parse a e tol = []
    · simp only [score_pairs_loop, hrs, eq_self_iff_true, if_true]
      rw [ih]
      simp only [List.length_cons]
      omega
    · simp only [score_pairs_loop, if_neg hrs]
      rw [ih]
      simp only [List.length_cons]
      omega

/-- The paired index sets collect exactly the (first-occurrence) indices
of the matched events. -/
theorem score_pairs_loop_paired (sim : Str → Str → ℚ) (parse : Str → Option ℚ)
    (tol : TolLevel) (actual_events : List ExtractedEvent)
    (expected_events : List SidecarExpectedEvent) :
    ∀ prs st,
      (score_pairs_loop sim parse tol actual_events expected_events prs st).paired_actual_indices
        = st.paired_actual_indices ∪ (prs.map (fun pr => list_index actual_events pr.1)).toFinset
      ∧ (score_pairs_loop sim parse tol actual_events expected_events prs st).paired_expected_indices
        = st.paired_expected_indices
            ∪ (prs.map (fun pr => list_index expected_events pr.2.1)).toFinset := by
  intro prs
  induction prs with
  | nil => intro st; constructor <;> simp [score_pairs_loop]
  | cons pr prs ih =>
    intro st
    obtain ⟨a, e, d⟩ := pr
    by_cases hrs : check_event_match sim parse a e tol = []
    · simp only [score_pairs_loop, hrs, eq_self_iff_true, if_true]
      refine ⟨?_, ?_⟩ <;>
        simp [(ih _).1, (ih _).2, List.map_cons, List.toFinset_cons,
          Finset.insert_union, Finset.union_insert]
    · simp only [score_pairs_loop, if_neg hrs]
      refine ⟨?_, ?_⟩ <;>
        simp [(ih _).1, (ih _).2, List.map_cons, List.toFinset_cons,
          Finset.insert_union, Finset.union_insert]

/-- On nonempty inputs, best-match pairing succeeds and returns the
solver's assignment mapped back to events: row/column indices are each
used at most once and stay inside the two collections. -/
theorem best_match_pairs_structure (sim : Str → Str → ℚ) (parse : Str → Option ℚ)
    (actual_events : List ExtractedEvent) (expected_events : List SidecarExpectedEvent)
    (ha : actual_events ≠ []) (he : expected_events ≠ []) :
    ∃ asg : List (ℕ × ℕ), best_match_pairs sim parse actual_events expected_events
        = some (asg.map (fun ij =>
            (actual_events.getD ij.1 default_extracted,
             expected_events.getD ij.2 default_expected,
             ((actual_events.map (fun act => expected_events.map
                 (fun ex => event_pair_distance sim parse act ex))).getD ij.1 []).getD ij.2 0)))
      ∧ (asg.map Prod.fst).Nodup
      ∧ (asg.map Prod.snd).Nodup
      ∧ (∀ ij ∈ asg, ij.1 < actual_events.length ∧ ij.2 < expected_events.length)
      ∧ asg.length ≤ min actual_events.length expected_events.length := by
  have hrect : ∀ row ∈ actual_events.map (fun act => expected_events.map
      (fun ex => event_pair_distance sim parse act ex)), row.length = expected_events.length := by
    intro row hrow
    rw [List.mem_map] at hrow
    obtain ⟨act, _, hact⟩ := hrow
    rw [← hact, List.length_map]
  obtain ⟨asg, hasg, hrnd, hcnd, hbnd, hlen, _⟩ :=
    hungarian_assignment_partial_matching_aux _ expected_events.length hrect
  refine ⟨asg, ?_, hrnd, hcnd, ?_, ?_⟩
  · simp only [best_match_pairs]
    rw [if_neg (by simp [ha, he]), hasg]
  · intro ij hij
    have := hbnd ij hij
    rwa [List.length_map] at this
  · rwa [List.length_map] at hlen

/-- Unfolding of one `score_sample` run in terms of the per-pair loop and
the unmatched residue (the non-early-return path). -/
theorem score_sample_run (sim : Str → Str → ℚ) (parse : Str → Option ℚ)
    (actual_events : List ExtractedEvent) (expected_events : List SidecarExpectedEvent)
    (tolerance_level : TolLevel) (sample_name : String) (category : Str)
    (hne : ¬(actual_events = [] ∧ expected_events = []))
    (pairs : List (ExtractedEvent × SidecarExpectedEvent × ℚ))
    (hbmp : best_match_pairs sim parse actual_events expected_events = some pairs) :
    score_sample sim parse actual_events expected_events tolerance_level sample_name category
      = some
      (let st := score_pairs_loop sim parse tolerance_level actual_events expected_events
        pairs ⟨∅, ∅, 0, 0, 0, []⟩
       let fp_unmatched := (List.range actual_events.length).filter
        (fun i => i ∉ st.paired_actual_indices)
       let fn_unmatched := (List.range expected_events.length).filter
        (fun i => i ∉ st.paired_expected_indices)
       let details := st.details
        ++ fp_unmatched.map (fun i =>
            { classification := Classification.fp,
              actual_event := some (actual_events.getD i default_extracted) })
        ++ fn_unmatched.map (fun i =>
            { classification := Classification.fn,
              expected_event := some (expected_events.getD i default_expected) })
       let total_fp := st.fp_from_mismatch + fp_unmatched.length
       let total_fn := st.fn_from_mismatch + fn_unmatched.length
       let prf := compute_prf st.tp total_fp total_fn
       { sample_name := sample_name, category := category, tolerance := tolerance_level,
         tp := st.tp, fp := total_fp, fn := total_fn,
         precision := prf.1, «recall» := prf.2.1, f1 := prf.2.2,
         per_event_details := details }) := by
  simp only [score_sample]
  rw [if_neg hne, hbmp]

/-- C3: in scoring mode, every matched pair whose classification yields a
non-empty reason list produces exactly two records sharing that reason
list - one FP carrying the candidate and one FN - while a pair with no
mismatch reasons produces exactly one TP record carrying both events;
the remaining records are the unmatched residue appended afterwards. -/
theorem score_sample_matched_pair_records (sim : Str → Str → ℚ) (parse : Str → Option ℚ)
    (actual_events : List ExtractedEvent) (expected_events : List SidecarExpectedEvent)
    (tolerance_level : TolLevel) (sample_name : String) (category : Str)
    (pairs : List (ExtractedEvent × SidecarExpectedEvent × ℚ)) (s : SampleScore)
    (hbmp : best_match_pairs sim parse actual_events expected_events = some pairs)
    (hss : score_sample sim parse actual_events expected_events tolerance_level
      sample_name category = some s) :
    ∃ residue, s.per_event_details
      = pairs.flatMap (fun pr =>
          let rs := check_event_match sim parse pr.1 pr.2.1 tolerance_level
          if rs = [] then
            [{ classification := Classification.tp, actual_event := some pr.1,
               expected_event := some pr.2.1, mismatch_reasons := [] }]
          else
            [{ classification := Classification.fp, actual_event := some pr.1,
               expected_event := some pr.2.1, mismatch_reasons := rs },
             { classification := Classification.fn, actual_event := none,
               expected_event := some pr.2.1, mismatch_reasons := rs }]) ++ residue := by
  by_cases hne : actual_events = [] ∧ expected_events = []
  · have hpairs : pairs = [] := by
      have : best_match_pairs sim parse actual_events expected_events = some [] := by
        simp only [best_match_pairs]
        rw [if_pos (Or.inl hne.1)]
      rw [this] at hbmp
      cases hbmp
      rfl
    have hs : s.per_event_details = [] := by
      simp only [score_sample, if_pos hne] at hss
      cases hss
      rfl
    exact ⟨[], by rw [hs, hpairs]; simp⟩
  · rw [score_sample_run sim parse actual_events expected_events tolerance_level
      sample_name category hne pairs hbmp] at hss
    cases hss
    have hdet := score_pairs_loop_details sim parse tolerance_level actual_events
      expected_events pairs ⟨∅, ∅, 0, 0, 0, []⟩
    dsimp only
    rw [hdet]
    simp only [List.nil_append, List.append_assoc]
    exact ⟨_, rfl⟩

/-- Closed instantiation of the C3 theorem at a concrete input. -/
theorem score_sample_matched_pair_records_witness :
    ∃ s, score_sample token_set_ratio fromisoformat
        [{ title := "Lunch".data, start_time := "2026-02-20T12:00:00".data,
           confidence := Confidence.high }] [] TolLevel.strict "" [] = some s
      ∧ ∃ residue, s.per_event_details
        = ([] : List (ExtractedEvent × SidecarExpectedEvent × ℚ)).flatMap (fun pr =>
            let rs := check_event_match token_set_ratio fromisoformat pr.1 pr.2.1
              TolLevel.strict
            if rs = [] then
              [{ classification := Classification.tp, actual_event := some pr.1,
                 expected_event := some pr.2.1, mismatch_reasons := [] }]
            else
              [{ classification := Classification.fp, actual_event := some pr.1,
                 expected_event := some pr.2.1, mismatch_reasons := rs },
               { classification := Classification.fn, actual_event := none,
                 expected_event := some pr.2.1, mismatch_reasons := rs }]) ++ residue := by
  refine ⟨_, rfl, score_sample_matched_pair_records token_set_ratio fromisoformat
    [{ title := "Lunch".data, start_time := "2026-02-20T12:00:00".data,
       confidence := Confidence.high }] [] TolLevel.strict "" [] [] _ rfl rfl⟩

/-- Counterexample to C7 as stated: with one candidate and no references,
`score_sample` emits an unmatched-residue FP record whose
`mismatch_reasons` list is empty, so "empty iff TP" fails. -/
theorem score_sample_reasons_iff_counterexample :
    ∃ s, score_sample token_set_ratio fromisoformat
        [lunch_candidate] [] TolLevel.strict "" [] = some s
      ∧ ¬(∀ d ∈ s.per_event_details,
          (d.mismatch_reasons = [] ↔ d.classification = Classification.tp)) := by
  refine ⟨_, rfl, ?_⟩
  intro hall
  have := hall
    { classification := Classification.fp, actual_event := some lunch_candidate }
    (by decide)
  simp at this

/-- C7 amended: a record's classification is TP exactly when its reason
list is empty and both events are present; unmatched-residue FP/FN
records also carry an empty reason list (but lack one of the events),
and the two records of a mismatched pair carry non-empty reasons. -/
theorem score_sample_reasons_characterize (sim : Str → Str → ℚ) (parse : Str → Option ℚ)
    (actual_events : List ExtractedEvent) (expected_events : List SidecarExpectedEvent)
    (tolerance_level : TolLevel) (sample_name : String) (category : Str) (s : SampleScore)
    (hss : score_sample sim parse actual_events expected_events tolerance_level
      sample_name category = some s) :
    ∀ d ∈ s.per_event_details,
      (d.classification = Classification.tp ↔
        (d.mismatch_reasons = [] ∧ d.actual_event ≠ none ∧ d.expected_event ≠ none)) := by
  by_cases hne : actual_events = [] ∧ expected_events = []
  · simp only [score_sample, if_pos hne] at hss
    cases hss
    intro d hd
    simp at hd
  · rcases hb : best_match_pairs sim parse actual_events expected_events with _ | pairs
    · rw [score_sample, if_neg hne, hb] at hss
      cases hss
    · rw [score_sample_run sim parse actual_events expected_events tolerance_level
        sample_name category hne pairs hb] at hss
      cases hss
      intro d hd
      dsimp only at hd
      rw [score_pairs_loop_details] at hd
      simp only [List.nil_append, List.mem_append] at hd
      rcases hd with (hd | hd) | hd
      · rw [List.mem_flatMap] at hd
        obtain ⟨pr, _, hdin⟩ := hd
        by_cases hrs : check_event_match sim parse pr.1 pr.2.1 tolerance_level = []
        · simp only [hrs, eq_self_iff_true, if_true, List.mem_singleton] at hdin
          subst hdin
          simp
        · simp only [hrs, if_neg, if_false] at hdin
          rcases List.mem_cons.mp hdin with rfl | hdin
          · simp [hrs]
          · rcases List.mem_cons.mp hdin with rfl | hdin
            · simp [hrs]
            · simp at hdin
      · rw [List.mem_map] at hd
        obtain ⟨i, _, hdi⟩ := hd
        rw [← hdi]
        simp
      · rw [List.mem_map] at hd
        obtain ⟨i, _, hdi⟩ := hd
        rw [← hdi]
        simp

/-- Closed instantiation of the amended C7 theorem at a concrete input. -/
theorem score_sample_reasons_characterize_witness :
    ∃ s, score_sample token_set_ratio fromisoformat
        [{ title := "Lunch".data, start_time := "2026-02-20T12:00:00".data,
           confidence := Confidence.high }] [] TolLevel.strict "" [] = some s
      ∧ ∀ d ∈ s.per_event_details,
        (d.classification = Classification.tp ↔
          (d.mismatch_reasons = [] ∧ d.actual_event ≠ none ∧ d.expected_event ≠ none)) :=
  ⟨_, rfl, score_sample_reasons_characterize token_set_ratio fromisoformat
    [{ title := "Lunch".data, start_time := "2026-02-20T12:00:00".data,
       confidence := Confidence.high }] [] TolLevel.strict "" [] _ rfl⟩

/-- A Boolean filter and its negation split a list's length. -/
theorem length_filter_split {α : Type} (p : α → Bool) :
    ∀ l : List α, (l.filter p).length + (l.filter (fun a => !(p a))).length = l.length := by
  intro l
  induction l with
  | nil => rfl
  | cons a l ih =>
    by_cases hp : p a = true
    · simp [List.filter_cons, hp, ih]
      omega
    · rw [Bool.not_eq_true] at hp
      simp [List.filter_cons, hp, ih]
      omega

/-- Filtering `range n` by exclusion from a finite set contained in
`{0, …, n-1}` leaves `n - S.card` indices. -/
theorem length_filter_not_mem_finset (n : ℕ) (S : Finset ℕ) (hS : ∀ x ∈ S, x < n) :
    ((List.range n).filter (fun i => i ∉ S)).length = n - S.card := by
  have hmemlen : ((List.range n).filter (fun i => i ∈ S)).length = S.card := by
    have hnd : ((List.range n).filter (fun i => i ∈ S)).Nodup :=
      (List.nodup_range n).filter _
    have hfs : ((List.range n).filter (fun i => i ∈ S)).toFinset = S := by
      ext x
      simp only [List.mem_toFinset, List.mem_filter, List.mem_range,
        decide_eq_true_eq]
      exact ⟨fun h => h.2, fun h => ⟨hS x h, h⟩⟩
    rw [← List.toFinset_card_of_nodup hnd, hfs]
  have hcongr : (List.range n).filter (fun i => i ∉ S)
      = (List.range n).filter (fun i => !(decide (i ∈ S))) := by
    apply List.filter_congr
    intro x _
    simp [decide_not]
  have hsplit := length_filter_split (fun i => decide (i ∈ S)) (List.range n)
  rw [hcongr]
  have hlr : (List.range n).length = n := List.length_range n
  omega

/-- Helper: on duplicate-free inputs a `score_sample` run succeeds and
its counts satisfy `tp + fp = |candidates|` and `tp + fn = |references|`
(each candidate lands in exactly one of TP or FP, each reference in
exactly one of TP or FN). -/
theorem score_sample_counts_of_nodup (sim : Str → Str → ℚ) (parse : Str → Option ℚ)
    (actual_events : List ExtractedEvent) (expected_events : List SidecarExpectedEvent)
    (tolerance_level : TolLevel) (sample_name : String) (category : Str)
    (hA : actual_events.Nodup) (hE : expected_events.Nodup) :
    ∃ s, score_sample sim parse actual_events expected_events tolerance_level
        sample_name category = some s
      ∧ s.tp + s.fp = actual_events.length
      ∧ s.tp + s.fn = expected_events.length := by
  by_cases hne : actual_events = [] ∧ expected_events = []
  · obtain ⟨h1, h2⟩ := hne
    subst h1
    subst h2
    exact ⟨_, rfl, rfl, rfl⟩
  · by_cases hae : actual_events = []
    · have hbmp : best_match_pairs sim parse actual_events expected_events = some [] := by
        simp only [best_match_pairs]
        rw [if_pos (Or.inl hae)]
      refine ⟨_, score_sample_run sim parse actual_events expected_events tolerance_level
        sample_name category hne [] hbmp, ?_, ?_⟩ <;>
        simp [score_pairs_loop, hae, Finset.not_mem_empty]
    · by_cases hee : expected_events = []
      · have hbmp : best_match_pairs sim parse actual_events expected_events = some [] := by
          simp only [best_match_pairs]
          rw [if_pos (Or.inr hee)]
        refine ⟨_, score_sample_run sim parse actual_events expected_events tolerance_level
          sample_name category hne [] hbmp, ?_, ?_⟩ <;>
          simp [score_pairs_loop, hee, Finset.not_mem_empty]
      · obtain ⟨asg, hbmp, hrnd, hcnd, hbnd, hlen⟩ :=
          best_match_pairs_structure sim parse actual_events expected_events hae hee
        set pairs := asg.map (fun ij =>
            (actual_events.getD ij.1 default_extracted,
             expected_events.getD ij.2 default_expected,
             ((actual_events.map (fun act => expected_events.map
                 (fun ex => event_pair_distance sim parse act ex))).getD ij.1 []).getD ij.2 0))
          with hpairs
        set st := score_pairs_loop sim parse tolerance_level actual_events expected_events
          pairs ⟨∅, ∅, 0, 0, 0, []⟩ with hst
        refine ⟨_, score_sample_run sim parse actual_events expected_events tolerance_level
          sample_name category hne pairs hbmp, ?_, ?_⟩
        · -- tp + fp = number of candidates
          have hsum := score_pairs_loop_tp_fp sim parse tolerance_level actual_events
            expected_events pairs ⟨∅, ∅, 0, 0, 0, []⟩
          have hplen : pairs.length = asg.length := by rw [hpairs, List.length_map]
          have hpa : st.paired_actual_indices = (asg.map Prod.fst).toFinset := by
            rw [hst, (score_pairs_loop_paired sim parse tolerance_level actual_events
              expected_events pairs ⟨∅, ∅, 0, 0, 0, []⟩).1]
            rw [Finset.empty_union, hpairs, List.map_map]
            congr 1
            apply List.map_congr_left
            intro ij hij
            simp only [Function.comp_apply]
            exact list_index_getD actual_events hA ij.1 (hbnd ij hij).1 default_extracted
          have hcard : (asg.map Prod.fst).toFinset.card = asg.length := by
            rw [List.toFinset_card_of_nodup hrnd, List.length_map]
          have hfpu : ((List.range actual_events.length).filter
              (fun i => i ∉ st.paired_actual_indices)).length
              = actual_events.length - asg.length := by
            rw [hpa, length_filter_not_mem_finset _ _ ?_, hcard]
            intro x hx
            rw [List.mem_toFinset, List.mem_map] at hx
            obtain ⟨ij, hij, hx'⟩ := hx
            rw [← hx']
            exact (hbnd ij hij).1
          dsimp only
          rw [← hst, hfpu]
          have hle : asg.length ≤ actual_events.length :=
            le_trans hlen (min_le_left _ _)
          rw [← hst] at hsum
          dsimp only at hsum
          rw [hplen] at hsum
          omega
        · -- tp + fn = number of references
          have hsum := score_pairs_loop_tp_fn sim parse tolerance_level actual_events
            expected_events pairs ⟨∅, ∅, 0, 0, 0, []⟩
          have hplen : pairs.length = asg.length := by rw [hpairs, List.length_map]
          have hpe : st.paired_expected_indices = (asg.map Prod.snd).toFinset := by
            rw [hst, (score_pairs_loop_paired sim parse tolerance_level actual_events
              expected_events pairs ⟨∅, ∅, 0, 0, 0, []⟩).2]
            rw [Finset.empty_union, hpairs, List.map_map]
            congr 1
            apply List.map_congr_left
            intro ij hij
            simp only [Function.comp_apply]
            exact list_index_getD expected_events hE ij.2 (hbnd ij hij).2 default_expected
          have hcard : (asg.map Prod.snd).toFinset.card = asg.length := by
            rw [List.toFinset_card_of_nodup hcnd, List.length_map]
          have hfnu : ((List.range expected_events.length).filter
              (fun i => i ∉ st.paired_expected_indices)).length
              = expected_events.length - asg.length := by
            rw [hpe, length_filter_not_mem_finset _ _ ?_, hcard]
            intro x hx
            rw [List.mem_toFinset, List.mem_map] at hx
            obtain ⟨ij, hij, hx'⟩ := hx
            rw [← hx']
            exact (hbnd ij hij).2
          dsimp only
          rw [← hst, hfnu]
          have hle : asg.length ≤ expected_events.length :=
            le_trans hlen (min_le_right _ _)
          rw [← hst] at hsum
          dsimp only at hsum
          rw [hplen] at hsum
          omega

/-- C10: when the candidate events are pairwise distinct by value and the
reference events are pairwise distinct by value, `score_sample` counts
every candidate exactly once as TP or FP and every reference exactly
once as TP or FN: `tp + fp = |candidates|` and `tp + fn = |references|`. -/
theorem score_sample_counts (sim : Str → Str → ℚ) (parse : Str → Option ℚ)
    (actual_events : List ExtractedEvent) (expected_events : List SidecarExpectedEvent)
    (tolerance_level : TolLevel) (sample_name : String) (category : Str)
    (hA : actual_events.Nodup) (hE : expected_events.Nodup) :
    ∃ s, score_sample sim parse actual_events expected_events tolerance_level
        sample_name category = some s
      ∧ s.tp + s.fp = actual_events.length
      ∧ s.tp + s.fn = expected_events.length :=
  score_sample_counts_of_nodup sim parse actual_events expected_events tolerance_level
    sample_name category hA hE

/-- Closed instantiation of the C10 theorem at a concrete input. -/
theorem score_sample_counts_witness :
    ([lunch_candidate] : List ExtractedEvent).Nodup
    ∧ ([] : List SidecarExpectedEvent).Nodup
    ∧ ∃ s, score_sample token_set_ratio fromisoformat [lunch_candidate] []
        TolLevel.strict "" [] = some s
      ∧ s.tp + s.fp = ([lunch_candidate] : List ExtractedEvent).length
      ∧ s.tp + s.fn = ([] : List SidecarExpectedEvent).length :=
  ⟨List.nodup_singleton _, List.nodup_nil,
    score_sample_counts token_set_ratio fromisoformat [lunch_candidate] []
      TolLevel.strict "" [] (List.nodup_singleton _) List.nodup_nil⟩

/-- The lexicographic string order is total. -/
theorem strLeB_total : ∀ a b : Str, (strLeB a b || strLeB b a) = true := by
  intro a
  induction a with
  | nil => intro b; simp [strLeB]
  | cons x xs ih =>
    intro b
    rcases b with _ | ⟨y, ys⟩
    · simp [strLeB]
    · rcases lt_trichotomy x y with h | h | h
      · simp [strLeB, h]
      · subst h
        simp only [strLeB, lt_irrefl, if_false]
        exact ih ys
      · simp [strLeB, h, asymm h]

/-- The lexicographic string order is transitive. -/
theorem strLeB_trans : ∀ a b c : Str,
    strLeB a b = true → strLeB b c = true → strLeB a c = true := by
  intro a
  induction a with
  | nil => intro b c _ _; simp [strLeB]
  | cons x xs ih =>
    intro b c h1 h2
    rcases b with _ | ⟨y, ys⟩
    · simp [strLeB] at h1
    · rcases c with _ | ⟨z, zs⟩
      · simp [strLeB] at h2
      · simp only [strLeB] at h1 h2 ⊢
        rcases lt_trichotomy x y with hxy | hxy | hxy
        · rcases lt_trichotomy y z with hyz | hyz | hyz
          · rw [if_pos (lt_trans hxy hyz)]
          · subst hyz
            rw [if_pos hxy]
          · rw [if_neg (asymm hyz), if_pos hyz] at h2
            cases h2
        · subst hxy
          rcases lt_trichotomy x z with hxz | hxz | hxz
          · rw [if_pos hxz]
          · subst hxz
            rw [if_neg (lt_irrefl x), if_neg (lt_irrefl x)] at h1 h2 ⊢
            exact ih ys zs h1 h2
          · rw [if_neg (asymm hxz), if_pos hxz] at h2
            cases h2
        · rw [if_neg (asymm hxy), if_pos hxy] at h1
          cases h1

/-- C8: `aggregate_scores` micro-averages - overall and per-category
metrics are `_compute_prf` applied once to summed tp/fp/fn - lists the
per-category breakdown sorted by category name, and maps the empty input
to the vacuous-truth aggregate. -/
theorem aggregate_scores_micro_average (sample_scores : List SampleScore) :
    aggregate_scores []
      = { overall_tp := 0, overall_fp := 0, overall_fn := 0,
          overall_precision := 1, overall_recall := 1, overall_f1 := 1,
          per_category := [], sample_count := 0 }
    ∧ (aggregate_scores sample_scores).overall_tp = (sample_scores.map SampleScore.tp).sum
    ∧ (aggregate_scores sample_scores).overall_fp = (sample_scores.map SampleScore.fp).sum
    ∧ (aggregate_scores sample_scores).overall_fn = (sample_scores.map SampleScore.fn).sum
    ∧ ((aggregate_scores sample_scores).overall_precision,
       (aggregate_scores sample_scores).overall_recall,
       (aggregate_scores sample_scores).overall_f1)
        = compute_prf (sample_scores.map SampleScore.tp).sum
            (sample_scores.map SampleScore.fp).sum (sample_scores.map SampleScore.fn).sum
    ∧ ((aggregate_scores sample_scores).per_category.map CategoryScore.category).Pairwise
        (fun a b => strLeB a b = true)
    ∧ (∀ c ∈ (aggregate_scores sample_scores).per_category,
        c.tp = ((sample_scores.filter (fun s => s.category = c.category)).map
          SampleScore.tp).sum
        ∧ c.fp = ((sample_scores.filter (fun s => s.category = c.category)).map
          SampleScore.fp).sum
        ∧ c.fn = ((sample_scores.filter (fun s => s.category = c.category)).map
          SampleScore.fn).sum
        ∧ (c.precision, c.«recall», c.f1) = compute_prf c.tp c.fp c.fn
        ∧ c.sample_count
          = (sample_scores.filter (fun s => s.category = c.category)).length)
    ∧ (aggregate_scores sample_scores).sample_count = sample_scores.length := by
  refine ⟨rfl, ?_⟩
  by_cases hne : sample_scores = []
  · subst hne
    refine ⟨rfl, rfl, rfl, rfl, ?_, ?_, rfl⟩
    · simp [aggregate_scores]
    · intro c hc
      simp [aggregate_scores] at hc
  · refine ⟨?_, ?_, ?_, ?_, ?_, ?_, ?_⟩
    · simp only [aggregate_scores, if_neg hne]
    · simp only [aggregate_scores, if_neg hne]
    · simp only [aggregate_scores, if_neg hne]
    · simp only [aggregate_scores, if_neg hne]
    · simp only [aggregate_scores, if_neg hne]
      rw [List.pairwise_map, List.pairwise_map]
      exact List.sorted_mergeSort strLeB_trans strLeB_total _
    · simp only [aggregate_scores, if_neg hne]
      intro c hc
      rw [List.mem_map] at hc
      obtain ⟨cat_name, _, hcat⟩ := hc
      rw [← hcat]
      exact ⟨rfl, rfl, rfl, rfl, rfl⟩
    · simp only [aggregate_scores, if_neg hne]

/-- Closed instantiation of the C8 theorem at a concrete input. -/
theorem aggregate_scores_micro_average_witness :
    (aggregate_scores []
      = { overall_tp := 0, overall_fp := 0, overall_fn := 0,
          overall_precision := 1, overall_recall := 1, overall_f1 := 1,
          per_category := [], sample_count := 0 })
    ∧ (aggregate_scores []).overall_tp = (([] : List SampleScore).map SampleScore.tp).sum
    ∧ (aggregate_scores []).overall_fp = (([] : List SampleScore).map SampleScore.fp).sum
    ∧ (aggregate_scores []).overall_fn = (([] : List SampleScore).map SampleScore.fn).sum
    ∧ ((aggregate_scores []).overall_precision,
       (aggregate_scores []).overall_recall,
       (aggregate_scores []).overall_f1)
        = compute_prf (([] : List SampleScore).map SampleScore.tp).sum
            (([] : List SampleScore).map SampleScore.fp).sum
            (([] : List SampleScore).map SampleScore.fn).sum
    ∧ ((aggregate_scores []).per_category.map CategoryScore.category).Pairwise
        (fun a b => strLeB a b = true)
    ∧ (∀ c ∈ (aggregate_scores []).per_category,
        c.tp = ((([] : List SampleScore).filter (fun s => s.category = c.category)).map
          SampleScore.tp).sum
        ∧ c.fp = ((([] : List SampleScore).filter (fun s => s.category = c.category)).map
          SampleScore.fp).sum
        ∧ c.fn = ((([] : List SampleScore).filter (fun s => s.category = c.category)).map
          SampleScore.fn).sum
        ∧ (c.precision, c.«recall», c.f1) = compute_prf c.tp c.fp c.fn
        ∧ c.sample_count
          = (([] : List SampleScore).filter (fun s => s.category = c.category)).length)
    ∧ (aggregate_scores []).sample_count = ([] : List SampleScore).length :=
  aggregate_scores_micro_average []

set_option maxRecDepth 8000 in
/-- Counterexample to C9 as stated: the assignment solver breaks cost
ties by input order, so swapping two candidates can swap which reference
each one is paired with.  With candidates at 12:00 and 12:10 and
references at 12:20 and 12:30 (all other fields equal), both orders
yield two TP records, but the record pairing 12:00 with 12:20 appears
only in the first run, so the record sets differ. -/
theorem score_sample_permutation_counterexample :
    (score_sample token_set_ratio fromisoformat [evA9, evB9] [exR9, exS9]
        TolLevel.strict "" []).map SampleScore.per_event_details
      = some [{ classification := Classification.tp, actual_event := some evA9,
                expected_event := some exR9 },
              { classification := Classification.tp, actual_event := some evB9,
                expected_event := some exS9 }]
    ∧ (score_sample token_set_ratio fromisoformat [evB9, evA9] [exR9, exS9]
        TolLevel.strict "" []).map SampleScore.per_event_details
      = some [{ classification := Classification.tp, actual_event := some evB9,
                expected_event := some exR9 },
              { classification := Classification.tp, actual_event := some evA9,
                expected_event := some exS9 }]
    ∧ ¬(∀ d : EventMatchDetail,
        (d ∈ [({ classification := Classification.tp, actual_event := some evA9,
                 expected_event := some exR9 } : EventMatchDetail),
              { classification := Classification.tp, actual_event := some evB9,
                expected_event := some exS9 }]
          ↔ d ∈ [({ classification := Classification.tp, actual_event := some evB9,
                    expected_event := some exR9 } : EventMatchDetail),
                 { classification := Classification.tp, actual_event := some evA9,
                   expected_event := some exS9 }])) := by
  refine ⟨?_, ?_, ?_⟩
  · with_unfolding_all decide
  · with_unfolding_all decide
  · intro h
    have hm := (h { classification := Classification.tp, actual_event := some evA9, expected_event := some exR9 }).mp (by decide)
    exact absurd hm (by decide)

/-- C9 (amended): the set of classification records is not
order-independent (the solver breaks ties by input order), but the
classification counts are compatible with any reordering: on
duplicate-free inputs, permuting the candidate list and/or the reference
list leaves `tp + fp` and `tp + fn` unchanged, since both runs succeed
and count every candidate exactly once as TP or FP and every reference
exactly once as TP or FN. -/
theorem score_sample_perm_counts (sim : Str → Str → ℚ) (parse : Str → Option ℚ)
    (actual actual' : List ExtractedEvent) (expected expected' : List SidecarExpectedEvent)
    (hpa : actual.Perm actual') (hpe : expected.Perm expected')
    (hA : actual.Nodup) (hE : expected.Nodup)
    (tolerance_level : TolLevel) (sample_name sample_name' : String)
    (category category' : Str) :
    ∃ s s', score_sample sim parse actual expected tolerance_level
        sample_name category = some s
      ∧ score_sample sim parse actual' expected' tolerance_level
          sample_name' category' = some s'
      ∧ s.tp + s.fp = s'.tp + s'.fp
      ∧ s.tp + s.fn = s'.tp + s'.fn := by
  obtain ⟨s, hs, h1, h2⟩ := score_sample_counts_of_nodup sim parse actual expected
    tolerance_level sample_name category hA hE
  obtain ⟨s', hs', h1', h2'⟩ := score_sample_counts_of_nodup sim parse actual' expected'
    tolerance_level sample_name' category' (hpa.nodup_iff.mp hA) (hpe.nodup_iff.mp hE)
  refine ⟨s, s', hs, hs', ?_, ?_⟩
  · rw [h1, h1', hpa.length_eq]
  · rw [h2, h2', hpe.length_eq]

/-- Closed instantiation of the amended C9 theorem at a concrete input. -/
theorem score_sample_perm_counts_witness :
    ([evA9, evB9] : List ExtractedEvent).Perm [evB9, evA9]
    ∧ ([exR9, exS9] : List SidecarExpectedEvent).Perm [exR9, exS9]
    ∧ ([evA9, evB9] : List ExtractedEvent).Nodup
    ∧ ([exR9, exS9] : List SidecarExpectedEvent).Nodup
    ∧ ∃ s s', score_sample token_set_ratio fromisoformat [evA9, evB9] [exR9, exS9]
        TolLevel.strict "" [] = some s
      ∧ score_sample token_set_ratio fromisoformat [evB9, evA9] [exR9, exS9]
          TolLevel.strict "" [] = some s'
      ∧ s.tp + s.fp = s'.tp + s'.fp
      ∧ s.tp + s.fn = s'.tp + s'.fn :=
  ⟨List.Perm.swap evB9 evA9 [], List.Perm.refl _, by decide, by decide,
    score_sample_perm_counts token_set_ratio fromisoformat [evA9, evB9] [evB9, evA9]
      [exR9, exS9] [exR9, exS9] (List.Perm.swap evB9 evA9 []) (List.Perm.refl _)
      (by decide) (by decide) TolLevel.strict "" "" [] []⟩

/-! ## The two title checks -/

/-- Counterexample to C5 as stated: in assertion mode the title check is
fuzzy under every tolerance level, including strict.  The titles
"Standup Team" and "Team Standup" have equal token sets, so the fuzzy
ratio is 100 and the assertion-mode check passes under the strict
profile (threshold 95), yet the titles are not equal after case-folding
and trimming (and the scoring-mode strict check accordingly reports a
mismatch). -/
theorem title_check_strict_counterexample :
    assert_title_match token_set_ratio "Standup Team".data "Team Standup".data
        (THRESHOLDS TolLevel.strict).title_ratio_min = none
    ∧ lowerStr (stripStr "Standup Team".data) ≠ lowerStr (stripStr "Team Standup".data)
    ∧ scoring_title_reason token_set_ratio TolLevel.strict
        "Standup Team".data "Team Standup".data ≠ none := by
  refine ⟨?_, ?_, ?_⟩
  · with_unfolding_all rfl
  · with_unfolding_all decide
  · with_unfolding_all decide

/-- C5 (amended): the scoring-mode title check is exact-after-strip+lower
under the strict profile and fuzzy against `title_ratio_min` under
moderate and relaxed; the assertion-mode title check is fuzzy against
the profile's `title_ratio_min` under every profile, strict included. -/
theorem title_check_modes (sim : Str → Str → ℚ) (a e : Str) (lvl : TolLevel) :
    (scoring_title_reason sim TolLevel.strict a e = none
      ↔ lowerStr (stripStr a) = lowerStr (stripStr e))
    ∧ (scoring_title_reason sim TolLevel.moderate a e = none
      ↔ (THRESHOLDS TolLevel.moderate).title_ratio_min ≤ sim a e)
    ∧ (scoring_title_reason sim TolLevel.relaxed a e = none
      ↔ (THRESHOLDS TolLevel.relaxed).title_ratio_min ≤ sim a e)
    ∧ (assert_title_match sim a e (THRESHOLDS lvl).title_ratio_min = none
      ↔ (THRESHOLDS lvl).title_ratio_min ≤ sim a e) := by
  refine ⟨?_, ?_, ?_, ?_⟩
  · simp [scoring_title_reason]
  · simp [scoring_title_reason, not_lt]
  · simp [scoring_title_reason, not_lt]
  · simp [assert_title_match, not_lt]

/-! ## Aggregation of assertion violations -/

/-- The error-accumulating fold of `assert_extraction_result` collects
exactly the concatenation of the per-pair violation lists. -/
theorem foldl_append_eq_flatMap {α β : Type} (f : α → List β) :
    ∀ (l : List α) (init : List β),
      l.foldl (fun acc x => acc ++ f x) init = init ++ l.flatMap f
  | [], init => by simp
  | x :: xs, init => by
    simp only [List.foldl_cons, List.flatMap_cons]
    rw [foldl_append_eq_flatMap f xs (init ++ f x)]
    simp [List.append_assoc]

/-- Counterexample to C6 as stated: with zero candidate events and one
expected event under the moderate profile, the count pre-check passes
(difference 1 is within tolerance 1), the matcher returns no pairs, so
the expected event is unmatched residue -- yet the adapter returns
success with no aggregated error: unmatched residue is silently
ignored. -/
theorem assert_extraction_result_residue_counterexample :
    assert_extraction_result token_set_ratio fromisoformat { events := [] } sidecar6
      = some (Except.ok ())
    ∧ ((((([] : List ExtractedEvent).length : ℤ)
          - (sidecar6.expected_events.length : ℤ)).natAbs)
        ≤ (THRESHOLDS sidecar6.tolerance).event_count_tolerance)
    ∧ sidecar6.expected_events.length = 1
    ∧ best_match_pairs token_set_ratio fromisoformat [] sidecar6.expected_events
        = some [] := by
  refine ⟨?_, by decide, rfl, rfl⟩
  rfl

/-- C6 (amended): after the event-count pre-check passes, the adapter
never raises on the first violation: it accumulates the violations of
every matched pair and raises one aggregated error listing them with
their total count (success when there are none).  Unmatched candidates
and references (the unmatched residue), however, contribute no
violations: only matched pairs are inspected. -/
theorem assert_extraction_result_aggregates (sim : Str → Str → ℚ) (parse : Str → Option ℚ)
    (actual : ExtractionResult) (sidecar : SidecarSpec)
    (hcount : (((actual.events.length : ℤ) - (sidecar.expected_events.length : ℤ)).natAbs
      ≤ (THRESHOLDS sidecar.tolerance).event_count_tolerance))
    (pairs : List (ExtractedEvent × SidecarExpectedEvent × ℚ))
    (hbmp : best_match_pairs sim parse actual.events sidecar.expected_events = some pairs) :
    assert_extraction_result sim parse actual sidecar
      = some (if pairs.flatMap (fun pr => assert_pair_errors sim parse
            (THRESHOLDS sidecar.tolerance) (build_context_id_set sidecar) sidecar
            pr.1 pr.2.1) = []
          then Except.ok ()
          else Except.error ("Extraction assertion failures ("
            ++ toString (pairs.flatMap (fun pr => assert_pair_errors sim parse
                (THRESHOLDS sidecar.tolerance) (build_context_id_set sidecar) sidecar
                pr.1 pr.2.1)).length ++ " issue(s))")) := by
  simp only [assert_extraction_result]
  rw [if_neg (not_lt.mpr hcount), hbmp]
  dsimp only
  rw [foldl_append_eq_flatMap]
  simp only [List.nil_append]
  by_cases h : pairs.flatMap (fun pr => assert_pair_errors sim parse
      (THRESHOLDS sidecar.tolerance) (build_context_id_set sidecar) sidecar
      pr.1 pr.2.1) = []
  · rw [if_pos h, if_pos h]
  · rw [if_neg h, if_neg h]

/-- Closed instantiation of the amended C6 theorem at a concrete input. -/
theorem assert_extraction_result_aggregates_witness :
    ((((({ events := [] } : ExtractionResult).events.length : ℤ)
        - (sidecar6.expected_events.length : ℤ)).natAbs)
      ≤ (THRESHOLDS sidecar6.tolerance).event_count_tolerance)
    ∧ best_match_pairs token_set_ratio fromisoformat
        ({ events := [] } : ExtractionResult).events sidecar6.expected_events
      = some ([] : List (ExtractedEvent × SidecarExpectedEvent × ℚ))
    ∧ assert_extraction_result token_set_ratio fromisoformat { events := [] } sidecar6
      = some (if ([] : List (ExtractedEvent × SidecarExpectedEvent × ℚ)).flatMap
            (fun pr => assert_pair_errors token_set_ratio fromisoformat
              (THRESHOLDS sidecar6.tolerance) (build_context_id_set sidecar6) sidecar6
              pr.1 pr.2.1) = []
          then Except.ok ()
          else Except.error ("Extraction assertion failures ("
            ++ toString (([] : List (ExtractedEvent × SidecarExpectedEvent × ℚ)).flatMap
                (fun pr => assert_pair_errors token_set_ratio fromisoformat
                  (THRESHOLDS sidecar6.tolerance) (build_context_id_set sidecar6) sidecar6
                  pr.1 pr.2.1)).length ++ " issue(s))")) :=
  ⟨by decide, rfl,
    assert_extraction_result_aggregates token_set_ratio fromisoformat { events := [] }
      sidecar6 (by decide) [] rfl⟩
